import Mathlib

/-!
Verification of the snarkVM polynomial / circuit-gadget core.

The development shallowly embeds, over the ring `ZMod p` (the circuit base
field) and over an abstract `Field F` (the polynomial engine), the functions
of the repository that the claims refer to, and proves or refutes each claim.
-/

set_option maxRecDepth 8000

namespace SnarkVM

/-! ## Bit-level helpers

Little-endian bit vectors, as produced by `to_bits_le` on native integers and
consumed by `Field::from_bits_le` / `Integer::from_bits_le`. -/

/-- The `k` low-order bits of `v`, little-endian (mirrors `to_bits_le` truncated
with `take(k)`). -/
def natBitsLE : Nat → Nat → List Bool
  | 0, _ => []
  | k + 1, v => (v % 2 == 1) :: natBitsLE k (v / 2)

/-- Recompose a little-endian bit vector into a natural number
(mirrors `Integer::from_bits_le` at the value level). -/
def bitsToNat : List Bool → Nat
  | [] => 0
  | b :: bs => (if b then 1 else 0) + 2 * bitsToNat bs

/-- Modes of circuit variables (source `Mode` enum). -/
inductive Mode where
  | Constant
  | Public
  | Private
deriving DecidableEq, Repr

/-- Source `Mode::is_constant`. -/
def Mode.is_constant : Mode → Bool
  | .Constant => true
  | _ => false

/-- One R1CS multiplication gate `a * b = c`, with the three linear
combinations already evaluated at the witness assignment under scrutiny. -/
structure Gate (p : Nat) where
  a : ZMod p
  b : ZMod p
  c : ZMod p
deriving DecidableEq

/-- A gate holds when the product equation is satisfied. -/
def Gate.holds {p : Nat} (g : Gate p) : Prop := g.a * g.b = g.c

instance {p : Nat} (g : Gate p) : Decidable g.holds := by
  unfold Gate.holds; infer_instance

/-- All gates of a list are satisfied (the `is_satisfied` check restricted to
the gates emitted by the operation under scrutiny). -/
def gatesHold {p : Nat} (gs : List (Gate p)) : Prop := ∀ g ∈ gs, g.holds

instance {p : Nat} (gs : List (Gate p)) : Decidable (gatesHold gs) := by
  unfold gatesHold; infer_instance

/-- Injection of a boolean witness value into the base field. -/
def boolToField (p : Nat) (b : Bool) : ZMod p := if b then 1 else 0

/-! ## Field gadget (source type `Field<E>`; renamed `FieldVar` because `Field`
is taken by Mathlib). A gadget value is its visibility mode together with the
ejected base-field value. -/

structure FieldVar (p : Nat) where
  mode : Mode
  val : ZMod p
deriving DecidableEq

/-- The two gates emitted by `Field::is_not_equal` in the non-constant case,
parameterized by the witness assignment `(isNeq, multiplier)`:
check 1 is `(a - b) * multiplier = is_neq`, check 2 is
`(a - b) * not(is_neq) = 0`. -/
def neqGates {p : Nat} (a b isNeq multiplier : ZMod p) : List (Gate p) :=
  [⟨a - b, multiplier, isNeq⟩, ⟨a - b, 1 - isNeq, 0⟩]

/-- Source `Field::is_not_equal`.  Returns the boolean gadget (mode and
ejected value) together with the list of gates the call enforces.  In the
constant-constant case the comparison is resolved natively and no gate is
emitted; otherwise the boolean witness `is_neq` and the field witness
`multiplier` are allocated and exactly the two checks of `neqGates` are
enforced.  (The bit-ness gate of the `Boolean` allocation itself belongs to
the allocation, not to this operation.) -/
def FieldVar.is_not_equal {p : Nat} (x y : FieldVar p) :
    (Mode × Bool) × List (Gate p) :=
  if x.mode.is_constant && y.mode.is_constant then
    ((Mode.Constant, decide (x.val ≠ y.val)), [])
  else
    let isNeq : Bool := decide (x.val ≠ y.val)
    let multiplier : ZMod p :=
      if x.val ≠ y.val then (x.val - y.val)⁻¹ else 1
    ((Mode.Private, isNeq), neqGates x.val y.val (boolToField p isNeq) multiplier)

/-! ## Field bit decomposition (source `Field::to_lower_bits_le`) -/

/-- Bit length with explicit fuel (structural recursion; fuel `n` suffices
for input `n`). -/
def bitLen : Nat → Nat → Nat
  | 0, _ => 0
  | _ + 1, 0 => 0
  | fuel + 1, n + 1 => bitLen fuel ((n + 1) / 2) + 1

/-- The bit length of the base-field modulus (source
`E::BaseField::size_in_bits()`). -/
def sizeInBits (p : Nat) : Nat := bitLen p p

/-- The reconstruction loop of `to_lower_bits_le`: starting from
`accumulator = 0` and `coefficient = 1`, it adds `from_boolean(bit) *
coefficient` and doubles the coefficient for each bit. -/
def bitsAccum (p : Nat) : List Bool → ZMod p → ZMod p → ZMod p
  | [], acc, _ => acc
  | b :: rest, acc, coeff => bitsAccum p rest (acc + (if b then coeff else 0)) (coeff + coeff)

/-- Source `Field::to_lower_bits_le`: halts (`none`) when `k` exceeds the
size in bits of the base field; otherwise returns the witnessed `k` low-order
bits of the ejected value together with the single enforced gate
`value * 1 = weighted sum of the bits`. -/
def to_lower_bits_le (p : Nat) (x : ZMod p) (k : Nat) :
    Option (List Bool × List (Gate p)) :=
  if k > sizeInBits p then none
  else
    let bits := natBitsLE k (ZMod.val x)
    some (bits, [⟨x, 1, bitsAccum p bits 0 1⟩])

/-! ## Integer gadget (source type `Integer<E, I>`).  The ejected value is
kept as the unsigned value of the `W`-bit little-endian bit vector; for
signed types the most significant bit is the sign bit. -/

structure IntegerVar (p W : Nat) where
  mode : Mode
  val : Nat
deriving DecidableEq

/-- Source `Integer::to_field` (integer core is not under src; it recomposes
the bit vector into a field element, `Field::from_bits_le`). -/
def intToField (p W v : Nat) : ZMod p := bitsAccum p (natBitsLE W v) 0 1

/-- Bitwise complement of a `W`-bit value (the `!other` operand of the
two's-complement identity). -/
def intComplement (W v : Nat) : Nat := bitsToNat ((natBitsLE W v).map (fun b => !b))

/-- The most significant (sign) bit of a `W`-bit value (source
`Integer::msb`). -/
def msbOf (W v : Nat) : Bool := v.testBit (W - 1)

/-- Native wrapping subtraction on `W`-bit unsigned representatives. -/
def wrappingSub (W a b : Nat) : Nat := (a + (2 ^ W - b)) % 2 ^ W

/-- Two's-complement reading of a `W`-bit value. -/
def toSigned (W v : Nat) : Int := if v < 2 ^ (W - 1) then (v : Int) else (v : Int) - 2 ^ W

/-- Native `checked_sub` on the `W`-bit representatives, signed or unsigned. -/
def checkedSubNative (W : Nat) (signed : Bool) (a b : Nat) : Option Nat :=
  if signed then
    let d : Int := toSigned W a - toSigned W b
    if -(2 ^ (W - 1) : Int) ≤ d ∧ d < 2 ^ (W - 1) then some (d % (2 ^ W : Int)).toNat else none
  else
    if b ≤ a then some (a - b) else none

/-- Native `checked_mul` on the `W`-bit representatives, signed or unsigned. -/
def checkedMulNative (W : Nat) (signed : Bool) (a b : Nat) : Option Nat :=
  if signed then
    let d : Int := toSigned W a * toSigned W b
    if -(2 ^ (W - 1) : Int) ≤ d ∧ d < 2 ^ (W - 1) then some (d % (2 ^ W : Int)).toNat else none
  else
    if a * b < 2 ^ W then some (a * b) else none

/-- Source `Integer::sub_wrapped`.  Constant minus constant is resolved
natively; otherwise the operands are sent to the field, `a + (!b) + 1` is
decomposed into `W + 1` low bits and the carry bit is popped, with wraparound
as the defined semantics (no overflow assertion is ever emitted). -/
def IntegerVar.sub_wrapped {p W : Nat} (x y : IntegerVar p W) :
    Option (IntegerVar p W × List (Gate p)) :=
  if x.mode.is_constant && y.mode.is_constant then
    some (⟨Mode.Constant, wrappingSub W x.val y.val⟩, [])
  else
    let difference : ZMod p :=
      intToField p W x.val + intToField p W (intComplement W y.val) + 1
    match to_lower_bits_le p difference (W + 1) with
    | none => none
    | some (bits, gs) => some (⟨Mode.Private, bitsToNat bits.dropLast⟩, gs)

/-- Source `Integer::sub_checked`.  Constant minus constant halts (`none`) on
native underflow; otherwise the field-level difference `a + (!b) + 1` is split
into `W` bits and a carry bit, and an underflow check is enforced: for
unsigned types `carry = 1`; for signed types the sign-comparison indicator
must be zero (the gates internal to the boolean sub-gadgets of the signed
comparison are deterministic and are elided; the claims under proof concern
the unsigned arm). -/
def IntegerVar.sub_checked {p W : Nat} (signed : Bool) (x y : IntegerVar p W) :
    Option (IntegerVar p W × List (Gate p)) :=
  if x.mode.is_constant && y.mode.is_constant then
    match checkedSubNative W signed x.val y.val with
    | some v => some (⟨Mode.Constant, v⟩, [])
    | none => none
  else
    let difference : ZMod p :=
      intToField p W x.val + intToField p W (intComplement W y.val) + 1
    match to_lower_bits_le p difference (W + 1) with
    | none => none
    | some (bits, gs) =>
      match bits.getLast? with
      | none => none
      | some carry =>
        let diffVal := bitsToNat bits.dropLast
        if signed then
          let isDifferentSigns := msbOf W x.val != msbOf W y.val
          let isUnderflow := isDifferentSigns && (msbOf W diffVal == msbOf W y.val)
          some (⟨Mode.Private, diffVal⟩, gs ++ [⟨boolToField p isUnderflow, 1, 0⟩])
        else
          some (⟨Mode.Private, diffVal⟩, gs ++ [⟨boolToField p carry, 1, 1⟩])

/-- Modelled from the spec: `Integer::mul_with_carry` is not under src.
Spec 4.3: "compute the field-level product of absolute values with a wide
carry (bits beyond the operand width), decompose into bit-level carry chain".
The product of the operands is computed in the base field and decomposed into
`2 * W` bits; the low `W` bits form the product integer and the high `W` bits
are the carry bits. -/
def mulWithCarry (p W : Nat) (x y : IntegerVar p W) :
    IntegerVar p W × List Bool × List (Gate p) :=
  let xf := intToField p W x.val
  let yf := intToField p W y.val
  let productField := xf * yf
  let bits := natBitsLE (2 * W) (ZMod.val productField)
  (⟨Mode.Private, bitsToNat (bits.take W)⟩, bits.drop W,
    [⟨xf, yf, productField⟩, ⟨productField, 1, bitsAccum p bits 0 1⟩])

/-- Native wrapping negation on `W`-bit representatives. -/
def wrappingNeg (W v : Nat) : Nat := (2 ^ W - v) % 2 ^ W

/-- Source `Integer::abs_wrapped` at the value level. -/
def absWrapped (W v : Nat) : Nat := if msbOf W v then wrappingNeg W v else v

/-- Source `Integer::mul_checked`.  Constant times constant halts (`none`) on
native overflow; otherwise the product is computed with wide carry bits and
an overflow indicator is enforced to be zero: for unsigned types the OR of
the carry bits; for signed types the sign-aware overflow analysis of the
source (with the gates internal to the boolean sub-gadgets elided, as the
claims under proof concern the unsigned arm). -/
def IntegerVar.mul_checked {p W : Nat} (signed : Bool) (x y : IntegerVar p W) :
    Option (IntegerVar p W × List (Gate p)) :=
  if x.mode.is_constant && y.mode.is_constant then
    match checkedMulNative W signed x.val y.val with
    | some v => some (⟨Mode.Constant, v⟩, [])
    | none => none
  else if signed then
    let pcg := mulWithCarry p W ⟨x.mode, absWrapped W x.val⟩ ⟨y.mode, absWrapped W y.val⟩
    let product := pcg.1
    let carryBitsNonzero := pcg.2.1.foldl (fun a b => a || b) false
    let operandsSameSign := msbOf W x.val == msbOf W y.val
    let positiveProductOverflows := operandsSameSign && msbOf W product.val
    let lowerProductBitsNonzero :=
      ((natBitsLE W product.val).take (W - 1)).foldl (fun a b => a || b) false
    let negativeProductLtOrEqSignedMin :=
      !msbOf W product.val || (msbOf W product.val && !lowerProductBitsNonzero)
    let negativeProductUnderflows := !operandsSameSign && !negativeProductLtOrEqSignedMin
    let overflow := carryBitsNonzero || positiveProductOverflows || negativeProductUnderflows
    some ((if operandsSameSign then product else ⟨Mode.Private, wrappingSub W 0 product.val⟩),
      pcg.2.2 ++ [⟨boolToField p overflow, 1, 0⟩])
  else
    let pcg := mulWithCarry p W x y
    let overflow := pcg.2.1.foldl (fun a b => a || b) false
    some (pcg.1, pcg.2.2 ++ [⟨boolToField p overflow, 1, 0⟩])

/-- The two gates of the unsigned non-constant `sub_checked` path, in closed
form: the bit-decomposition identity for `a + (!b) + 1 = a + 2^W - b`, and the
carry-bit assertion `carry * 1 = 1` with `carry = (b ≤ a)`. -/
def subGates (p W a b : Nat) : List (Gate p) :=
  [Gate.mk ((a + 2 ^ W - b : Nat) : ZMod p) 1 ((a + 2 ^ W - b : Nat) : ZMod p),
   Gate.mk (boolToField p (decide (b ≤ a))) 1 1]

/-- The single gate of the non-constant `sub_wrapped` path, in closed form:
only the bit-decomposition identity (no overflow assertion). -/
def wrapGates (p W a b : Nat) : List (Gate p) :=
  [Gate.mk ((a + 2 ^ W - b : Nat) : ZMod p) 1 ((a + 2 ^ W - b : Nat) : ZMod p)]

/-- The gates of the unsigned non-constant `mul_checked` path, in closed form:
the product gate, the wide bit-decomposition identity, and the assertion that
the OR of the carry bits is zero. -/
def mulGates (p W a b : Nat) : List (Gate p) :=
  [Gate.mk ((a : Nat) : ZMod p) ((b : Nat) : ZMod p) ((a * b : Nat) : ZMod p),
   Gate.mk ((a * b : Nat) : ZMod p) 1 ((a * b : Nat) : ZMod p),
   Gate.mk (boolToField p (decide (2 ^ W ≤ a * b))) 1 0]

/-! ## Polynomial engine (source `fft/polynomial/mod.rs`) -/

structure DensePolynomial (F : Type) where
  coeffs : List F
deriving DecidableEq

structure SparsePolynomial (F : Type) where
  coeffs : List (Nat × F)
deriving DecidableEq

/-- Source enum `DenseOrSparsePolynomial` (the borrow-or-own `Cow` tag is a
memory-level device and is not modelled). -/
inductive DenseOrSparsePolynomial (F : Type) where
  | SPolynomial : SparsePolynomial F → DenseOrSparsePolynomial F
  | DPolynomial : DensePolynomial F → DenseOrSparsePolynomial F
deriving DecidableEq

/-- Modelled from the spec: `DensePolynomial::is_zero` (dense.rs is not under
src).  Spec 3: "zero polynomial = empty sequence", with the canonical-form
invariant of no trailing zero coefficient. -/
def DensePolynomial.is_zero {F} (d : DensePolynomial F) : Bool := d.coeffs.isEmpty

/-- Modelled from the spec: `DensePolynomial::degree`.  Spec 4.1: highest
index with a nonzero coefficient; the zero polynomial has degree 0 by
convention. -/
def DensePolynomial.degree {F} (d : DensePolynomial F) : Nat := d.coeffs.length - 1

/-- Last stored coefficient (`coeffs.last()`). -/
def DensePolynomial.last {F} (d : DensePolynomial F) : Option F := d.coeffs.getLast?

/-- The canonicalization loop: pop trailing zero coefficients
(`while let Some(true) = coeffs.last().map(is_zero)`). -/
def trimZeros {F} [Zero F] [DecidableEq F] : List F → List F
  | [] => []
  | c :: rest =>
    match trimZeros rest with
    | [] => if c = 0 then [] else [c]
    | r => c :: r

/-- Modelled from the spec: `DensePolynomial::from_coefficients_vec` trims to
canonical form (spec 3: "canonical form trimmed after every mutating
operation"). -/
def DensePolynomial.from_coefficients_vec {F} [Zero F] [DecidableEq F]
    (l : List F) : DensePolynomial F := ⟨trimZeros l⟩

def DensePolynomial.zero {F} : DensePolynomial F := ⟨[]⟩

/-- Modelled from the spec: `SparsePolynomial::is_zero` (sparse.rs is not
under src; a sparse polynomial stores exactly its nonzero terms). -/
def SparsePolynomial.is_zero {F} (s : SparsePolynomial F) : Bool := s.coeffs.isEmpty

/-- Modelled from the spec: `SparsePolynomial::degree` is the highest stored
degree (the pairs are sorted by strictly increasing degree). -/
def SparsePolynomial.degree {F} (s : SparsePolynomial F) : Nat :=
  ((s.coeffs.getLast?).map Prod.fst).getD 0

/-- Source `DenseOrSparsePolynomial::is_zero`. -/
def DenseOrSparsePolynomial.is_zero {F} : DenseOrSparsePolynomial F → Bool
  | .SPolynomial s => s.is_zero
  | .DPolynomial d => d.is_zero

/-- Source `DenseOrSparsePolynomial::degree`. -/
def DenseOrSparsePolynomial.degree {F} : DenseOrSparsePolynomial F → Nat
  | .SPolynomial s => s.degree
  | .DPolynomial d => d.degree

/-- Source `DenseOrSparsePolynomial::leading_coefficient`. -/
def DenseOrSparsePolynomial.leading_coefficient {F} :
    DenseOrSparsePolynomial F → Option F
  | .SPolynomial s => (s.coeffs.getLast?).map Prod.snd
  | .DPolynomial d => d.last

/-- Modelled from the spec: the Sparse→Dense conversion
(`From<SparsePolynomial> for DensePolynomial` is not under src): write each
stored (degree, coefficient) pair into a zero-filled coefficient vector of
length `degree + 1`, then canonicalize. -/
def sparseToDense {F} [Zero F] [DecidableEq F] (s : SparsePolynomial F) :
    DensePolynomial F :=
  DensePolynomial.from_coefficients_vec
    (s.coeffs.foldl (fun acc ic => acc.set ic.1 ic.2) (List.replicate (s.degree + 1) 0))

/-- Source `Into<DensePolynomial> for DenseOrSparsePolynomial`: total for
both variants. -/
def DenseOrSparsePolynomial.into_dense {F} [Zero F] [DecidableEq F] :
    DenseOrSparsePolynomial F → DensePolynomial F
  | .DPolynomial d => d
  | .SPolynomial s => sparseToDense s

/-- Source `TryInto<SparsePolynomial> for DenseOrSparsePolynomial`: the typed
error (source `Error = ()`) is returned exactly for the Dense variant. -/
def DenseOrSparsePolynomial.try_into_sparse {F} :
    DenseOrSparsePolynomial F → Except Unit (SparsePolynomial F)
  | .SPolynomial s => .ok s
  | .DPolynomial _ => .error ()

/-- Source `CanonicalSerialize::serialize`: the wire format is the dense
coefficient vector (a Sparse source is converted to dense form first).  The
byte encoding of a vector of field elements belongs to the external
serialization collaborator and is modelled as the coefficient list itself. -/
def DenseOrSparsePolynomial.serialize {F} [Zero F] [DecidableEq F] :
    DenseOrSparsePolynomial F → List F
  | .SPolynomial s => (sparseToDense s).coeffs
  | .DPolynomial d => d.coeffs

/-- Source `CanonicalDeserialize::deserialize`: reads a dense coefficient
vector and always wraps it in the `DPolynomial` variant. -/
def deserializeDOS {F} (w : List F) : DenseOrSparsePolynomial F :=
  .DPolynomial ⟨w⟩

/-- The (degree, coefficient) pairs the division loop iterates over for the
divisor: the stored pairs for a Sparse divisor, `iter().enumerate()` for a
Dense one. -/
def pairsOf {F} : DenseOrSparsePolynomial F → List (Nat × F)
  | .SPolynomial s => s.coeffs
  | .DPolynomial d => d.coeffs.enum

/-- One remainder update of the division loop: for each divisor pair
`(i, div_coeff)`, subtract `cur_q_coeff * div_coeff` from
`remainder[cur_q_degree + i]`. -/
def divStep {F} [Field F] (pairs : List (Nat × F)) (qc : F) (k : Nat)
    (rem : List F) : List F :=
  pairs.foldl (fun r ic => r.set (k + ic.1) (r.getD (k + ic.1) 0 - qc * ic.2)) rem

/-- The while loop of `divide_with_q_and_r`, with explicit fuel (the loop
terminates because every round cancels the leading remainder coefficient, so
`remainder.length` rounds always suffice). -/
def divideLoop {F} [Field F] [DecidableEq F] (divisor : DenseOrSparsePolynomial F)
    (dLeadInv : F) : Nat → List F → List F → List F × List F
  | 0, q, rem => (q, rem)
  | fuel + 1, q, rem =>
    if rem ≠ [] ∧ divisor.degree ≤ rem.length - 1 then
      let qc := (rem.getLast?.getD 0) * dLeadInv
      let k := (rem.length - 1) - divisor.degree
      divideLoop divisor dLeadInv fuel (q.set k qc)
        (trimZeros (divStep (pairsOf divisor) qc k rem))
    else (q, rem)

/-- Source `DenseOrSparsePolynomial::divide_with_q_and_r`.  `none` models a
panic (halt): dividing a nonzero polynomial by the zero polynomial, or a
failed `unwrap` on the leading coefficient or its inverse. -/
def DenseOrSparsePolynomial.divide_with_q_and_r {F} [Field F] [DecidableEq F]
    (self divisor : DenseOrSparsePolynomial F) :
    Option (DensePolynomial F × DensePolynomial F) :=
  if self.is_zero then some (DensePolynomial.zero, DensePolynomial.zero)
  else if divisor.is_zero then none
  else if self.degree < divisor.degree then some (DensePolynomial.zero, self.into_dense)
  else
    match divisor.leading_coefficient with
    | none => none
    | some lc =>
      if lc = 0 then none
      else
        let q0 : List F := List.replicate (self.degree - divisor.degree + 1) 0
        let rem0 := self.into_dense.coeffs
        let qr := divideLoop divisor lc⁻¹ rem0.length q0 rem0
        some (DensePolynomial.from_coefficients_vec qr.1, ⟨qr.2⟩)

/-! ## Specification-side semantics of polynomials (coefficient functions) -/

/-- Coefficient of degree `n` in a dense coefficient list. -/
def denseCoeff {F} [Zero F] (l : List F) (n : Nat) : F := l.getD n 0

/-- Coefficient of degree `n` in a list of (degree, coefficient) pairs
(summing duplicates; the sparse invariant makes degrees distinct). -/
def pairCoeff {F} [AddMonoid F] : List (Nat × F) → Nat → F
  | [], _ => 0
  | ic :: rest, n => (if n = ic.1 then ic.2 else 0) + pairCoeff rest n

/-- Coefficient function of either polynomial representation. -/
def dosCoeff {F} [AddMonoid F] : DenseOrSparsePolynomial F → Nat → F
  | .SPolynomial s => pairCoeff s.coeffs
  | .DPolynomial d => denseCoeff d.coeffs

/-- Coefficient `n` of the product of the polynomials with coefficient
functions `f` and `g` (the convolution defining polynomial
multiplication). -/
def mulCoeff {F} [Semiring F] (f g : Nat → F) (n : Nat) : F :=
  ∑ i ∈ Finset.range (n + 1), f i * g (n - i)

/-- Canonical-form invariant of a dense coefficient list: the last
coefficient, when present, is nonzero. -/
def lastNonzero {F} [Zero F] [DecidableEq F] (l : List F) : Bool :=
  match l.getLast? with
  | none => true
  | some c => decide (c ≠ 0)

/-- Strict increase of a degree list, as an executable check. -/
def strictlyIncreasing : List Nat → Bool
  | [] => true
  | [_] => true
  | a :: b :: rest => decide (a < b) && strictlyIncreasing (b :: rest)

/-- Data-model invariant of a sparse polynomial: strictly increasing degrees
and nonzero stored coefficients. -/
def SparsePolynomial.inv {F} [Zero F] [DecidableEq F] (s : SparsePolynomial F) : Prop :=
  strictlyIncreasing (s.coeffs.map Prod.fst) = true ∧ ∀ ic ∈ s.coeffs, ic.2 ≠ (0 : F)

instance {F} [Zero F] [DecidableEq F] (s : SparsePolynomial F) :
    Decidable s.inv :=
  inferInstanceAs (Decidable (strictlyIncreasing (s.coeffs.map Prod.fst) = true ∧
    ∀ ic ∈ s.coeffs, ic.2 ≠ (0 : F)))

/-- Data-model invariant of either representation. -/
def DenseOrSparsePolynomial.inv {F} [Zero F] [DecidableEq F] :
    DenseOrSparsePolynomial F → Prop
  | .SPolynomial s => s.inv
  | .DPolynomial d => lastNonzero d.coeffs = true

instance {F} [Zero F] [DecidableEq F] (x : DenseOrSparsePolynomial F) :
    Decidable x.inv :=
  match x with
  | .SPolynomial s => inferInstanceAs (Decidable s.inv)
  | .DPolynomial d => inferInstanceAs (Decidable (lastNonzero d.coeffs = true))

/-- A small concrete prime field used to exercise the definitions. -/
instance : Fact (Nat.Prime 5) := ⟨by norm_num⟩

end SnarkVM

namespace SnarkVM

/-! ## Supporting lemmas on bits -/

theorem bitsToNat_natBitsLE (k v : Nat) : bitsToNat (natBitsLE k v) = v % 2 ^ k := by
  induction k generalizing v with
  | zero => simp [natBitsLE, bitsToNat, Nat.mod_one]
  | succ k ih =>
      have hd : v / 2 % 2 ^ k = v % (2 * 2 ^ k) / 2 := (Nat.mod_mul_right_div_self v 2 (2 ^ k)).symm
      have hp : (2 : Nat) ^ (k + 1) = 2 * 2 ^ k := by ring
      have hm : v % (2 * 2 ^ k) % 2 = v % 2 := Nat.mod_mod_of_dvd v ⟨2 ^ k, rfl⟩
      have hsplit : v % (2 * 2 ^ k) = 2 * (v % (2 * 2 ^ k) / 2) + v % 2 := by omega
      simp only [natBitsLE, bitsToNat, ih, hp, hd]
      rcases Nat.even_or_odd v with h | h
      · have h2 : v % 2 = 0 := Nat.even_iff.mp h
        simp only [h2] at hsplit ⊢
        simp only [Nat.reduceBEq, Bool.false_eq_true, if_false]
        omega
      · have h2 : v % 2 = 1 := Nat.odd_iff.mp h
        simp only [h2] at hsplit ⊢
        simp only [Nat.reduceBEq, if_true]
        omega

theorem natBitsLE_length (k v : Nat) : (natBitsLE k v).length = k := by
  induction k generalizing v with
  | zero => rfl
  | succ k ih => simp [natBitsLE, ih]

theorem bitsToNat_lt (bs : List Bool) : bitsToNat bs < 2 ^ bs.length := by
  induction bs with
  | nil => simp [bitsToNat]
  | cons b rest ih =>
      simp only [bitsToNat, List.length_cons, pow_succ]
      cases b <;> simp <;> omega

theorem natBitsLE_bitsToNat (bs : List Bool) : natBitsLE bs.length (bitsToNat bs) = bs := by
  induction bs with
  | nil => rfl
  | cons b rest ih =>
      simp only [List.length_cons, natBitsLE, bitsToNat]
      cases b
      · have h1 : ((0 : Nat) + 2 * bitsToNat rest) / 2 = bitsToNat rest := by omega
        have h2 : ((0 : Nat) + 2 * bitsToNat rest) % 2 = 0 := by omega
        simp only [if_false, Bool.false_eq_true, h1, h2, ih, Nat.reduceBEq]
      · have h1 : ((1 : Nat) + 2 * bitsToNat rest) / 2 = bitsToNat rest := by omega
        have h2 : ((1 : Nat) + 2 * bitsToNat rest) % 2 = 1 := by omega
        simp only [if_true, h1, h2, ih, Nat.reduceBEq]

/-! ## The reconstruction loop computes the weighted bit sum -/

theorem bitsAccum_eq (p : Nat) (bs : List Bool) (acc coeff : ZMod p) :
    bitsAccum p bs acc coeff = acc + (bitsToNat bs : ZMod p) * coeff := by
  induction bs generalizing acc coeff with
  | nil => simp [bitsAccum, bitsToNat]
  | cons b rest ih =>
      simp only [bitsAccum, bitsToNat, ih]
      cases b <;> simp only [if_true, if_false, Bool.false_eq_true, if_neg] <;>
        push_cast <;> ring

theorem bitsAccum_zero_one (p : Nat) (bs : List Bool) :
    bitsAccum p bs 0 1 = (bitsToNat bs : ZMod p) := by
  rw [bitsAccum_eq]; ring

/-! ## List update helpers -/

theorem getD_set_self {α : Type} (l : List α) (i : Nat) (a d : α)
    (h : i < l.length) : (l.set i a).getD i d = a := by
  simp [List.getD_eq_getElem?_getD, List.getElem?_set, h]

theorem getD_set_ne {α : Type} (l : List α) {i j : Nat} (a d : α)
    (h : i ≠ j) : (l.set i a).getD j d = l.getD j d := by
  simp [List.getD_eq_getElem?_getD, List.getElem?_set, h]

theorem getD_length_sub_one {α : Type} (l : List α) (d : α) :
    l.getD (l.length - 1) d = (l.getLast?).getD d := by
  rw [List.getD_eq_getElem?_getD, ← List.getLast?_eq_getElem?]

/-! ## Canonicalization (trimZeros) lemmas -/

theorem trimZeros_eq_nil_getD {F : Type} [Zero F] [DecidableEq F] :
    ∀ (l : List F), trimZeros l = [] → ∀ n, l.getD n 0 = 0 := by
  intro l
  induction l with
  | nil => intro _ n; simp
  | cons c rest ih =>
      intro h n
      simp only [trimZeros] at h
      rcases htr : trimZeros rest with _ | ⟨r, rs⟩
      · rw [htr] at h
        have hc : c = 0 := by
          by_cases hc0 : c = 0
          · exact hc0
          · simp [hc0] at h
        cases n with
        | zero => simpa using hc
        | succ n => simpa using ih htr n
      · rw [htr] at h
        simp at h

theorem trimZeros_getD {F : Type} [Zero F] [DecidableEq F] :
    ∀ (l : List F) (n : Nat), (trimZeros l).getD n 0 = l.getD n 0 := by
  intro l
  induction l with
  | nil => intro n; rfl
  | cons c rest ih =>
      intro n
      simp only [trimZeros]
      rcases htr : trimZeros rest with _ | ⟨r, rs⟩
      · by_cases hc : c = 0
        · subst hc
          simp only [if_pos rfl]
          cases n with
          | zero => simp
          | succ n =>
              simp only [List.getD_cons_succ, List.getD_nil]
              exact (trimZeros_eq_nil_getD rest htr n).symm
        · simp only [if_neg hc]
          cases n with
          | zero => simp
          | succ n =>
              simp only [List.getD_cons_succ, List.getD_nil]
              exact (trimZeros_eq_nil_getD rest htr n).symm
      · cases n with
        | zero => simp
        | succ n =>
            simp only [List.getD_cons_succ]
            rw [← ih n, htr]

theorem trimZeros_lastNonzero {F : Type} [Zero F] [DecidableEq F] :
    ∀ (l : List F), lastNonzero (trimZeros l) = true := by
  intro l
  induction l with
  | nil => rfl
  | cons c rest ih =>
      simp only [trimZeros]
      rcases htr : trimZeros rest with _ | ⟨r, rs⟩
      · by_cases hc : c = 0
        · simp [hc, lastNonzero]
        · simp [hc, lastNonzero]
      · rw [htr] at ih
        simpa [lastNonzero, List.getLast?_cons_cons] using ih

theorem trimZeros_of_lastNonzero {F : Type} [Zero F] [DecidableEq F] :
    ∀ (l : List F), lastNonzero l = true → trimZeros l = l := by
  intro l
  induction l with
  | nil => intro _; rfl
  | cons c rest ih =>
      intro h
      cases rest with
      | nil =>
          simp only [lastNonzero, List.getLast?] at h
          simp only [trimZeros]
          simp at h
          simp [h]
      | cons r rs =>
          have h2 : lastNonzero (r :: rs) = true := by
            simpa [lastNonzero, List.getLast?_cons_cons] using h
          have hih := ih h2
          show (match trimZeros (r :: rs) with
            | [] => if c = 0 then [] else [c]
            | t => c :: t) = c :: r :: rs
          rw [hih]

theorem trimZeros_length_le {F : Type} [Zero F] [DecidableEq F] :
    ∀ (l : List F), (trimZeros l).length ≤ l.length := by
  intro l
  induction l with
  | nil => simp [trimZeros]
  | cons c rest ih =>
      simp only [trimZeros]
      rcases htr : trimZeros rest with _ | ⟨r, rs⟩
      · by_cases hc : c = 0 <;> simp [hc]
      · rw [htr] at ih
        simpa using ih

theorem trimZeros_length_lt {F : Type} [Zero F] [DecidableEq F] :
    ∀ (l : List F), l.getLast? = some 0 → (trimZeros l).length < l.length := by
  intro l
  induction l with
  | nil => intro h; simp at h
  | cons c rest ih =>
      intro h
      cases rest with
      | nil =>
          simp only [List.getLast?] at h
          simp at h
          simp [trimZeros, h]
      | cons r rs =>
          rw [List.getLast?_cons_cons] at h
          have hlt := ih h
          show (match trimZeros (r :: rs) with
            | [] => if c = 0 then [] else [c]
            | t => c :: t).length < (c :: r :: rs).length
          rcases htr : trimZeros (r :: rs) with _ | ⟨t, ts⟩
          · have hle : (if c = 0 then ([] : List F) else [c]).length ≤ 1 := by
              by_cases hc : c = 0 <;> simp [hc]
            simp only [List.length_cons] at hle ⊢
            omega
          · rw [htr] at hlt
            simp only [List.length_cons] at hlt ⊢
            omega

/-! ## pairCoeff and the sparse-to-dense write loop -/

theorem pairCoeff_not_mem {F : Type} [AddMonoid F] :
    ∀ (pairs : List (Nat × F)) (n : Nat), n ∉ pairs.map Prod.fst →
      pairCoeff pairs n = 0 := by
  intro pairs
  induction pairs with
  | nil => intro n _; rfl
  | cons ic rest ih =>
      intro n hn
      simp only [List.map_cons, List.mem_cons] at hn
      push_neg at hn
      simp only [pairCoeff, if_neg hn.1, ih n hn.2, zero_add]

theorem pairCoeff_mem {F : Type} [AddMonoid F] :
    ∀ (pairs : List (Nat × F)), (pairs.map Prod.fst).Nodup →
      ∀ ic ∈ pairs, pairCoeff pairs ic.1 = ic.2 := by
  intro pairs
  induction pairs with
  | nil => intro _ ic h; simp at h
  | cons jc rest ih =>
      intro hnd ic hic
      simp only [List.map_cons, List.nodup_cons] at hnd
      rcases List.mem_cons.mp hic with rfl | hmem
      · simp [pairCoeff, pairCoeff_not_mem rest ic.1 hnd.1]
      · have hne : ic.1 ≠ jc.1 := by
          intro hcontra
          exact hnd.1 (hcontra ▸ List.mem_map_of_mem Prod.fst hmem)
        simp [pairCoeff, if_neg hne, ih hnd.2 ic hmem]

theorem writeFold_length {F : Type} :
    ∀ (pairs : List (Nat × F)) (base : List F),
      (List.foldl (fun acc ic => acc.set ic.1 ic.2) base pairs).length = base.length := by
  intro pairs
  induction pairs with
  | nil => intro base; rfl
  | cons ic rest ih =>
      intro base
      simp only [List.foldl_cons, ih, List.length_set]

theorem writeFold_not_mem {F : Type} [Zero F] :
    ∀ (pairs : List (Nat × F)) (base : List F) (n : Nat),
      n ∉ pairs.map Prod.fst →
      (List.foldl (fun acc ic => acc.set ic.1 ic.2) base pairs).getD n 0 =
        base.getD n 0 := by
  intro pairs
  induction pairs with
  | nil => intro base n _; rfl
  | cons ic rest ih =>
      intro base n hn
      simp only [List.map_cons, List.mem_cons] at hn
      push_neg at hn
      simp only [List.foldl_cons]
      rw [ih _ n hn.2, getD_set_ne _ _ _ (Ne.symm hn.1)]

theorem writeFold_mem {F : Type} [Zero F] :
    ∀ (pairs : List (Nat × F)) (base : List F),
      (pairs.map Prod.fst).Nodup →
      ∀ ic ∈ pairs, ic.1 < base.length →
      (List.foldl (fun acc ic => acc.set ic.1 ic.2) base pairs).getD ic.1 0 = ic.2 := by
  intro pairs
  induction pairs with
  | nil => intro _ _ ic h; simp at h
  | cons jc rest ih =>
      intro base hnd ic hic hlen
      simp only [List.map_cons, List.nodup_cons] at hnd
      simp only [List.foldl_cons]
      rcases List.mem_cons.mp hic with rfl | hmem
      · rw [writeFold_not_mem rest _ ic.1 hnd.1,
          getD_set_self _ _ _ _ hlen]
      · exact ih _ hnd.2 ic hmem (by simpa using hlen)

theorem pairwise_lt_le_getLast :
    ∀ {l : List Nat} {a m : Nat}, l.Pairwise (· < ·) → a ∈ l →
      l.getLast? = some m → a ≤ m := by
  intro l
  induction l with
  | nil => intro a m _ h; simp at h
  | cons x xs ih =>
      intro a m hp hm hl
      rcases List.pairwise_cons.mp hp with ⟨hx, hxs⟩
      cases xs with
      | nil =>
          simp only [List.getLast?] at hl
          simp at hl hm
          omega
      | cons y ys =>
          rw [List.getLast?_cons_cons] at hl
          rcases List.mem_cons.mp hm with rfl | hmem
          · have hmmem : m ∈ y :: ys := by
              have := List.getLast?_eq_getElem? (y :: ys)
              rw [this] at hl
              exact List.getElem?_mem hl
            exact le_of_lt (hx m hmmem)
          · exact ih hxs hmem hl

/-! ## Sparse polynomial semantics -/

theorem strictlyIncreasing_chain' :
    ∀ (l : List Nat), strictlyIncreasing l = true ↔ List.Chain' (· < ·) l := by
  intro l
  induction l with
  | nil => simp [strictlyIncreasing]
  | cons a rest ih =>
      cases rest with
      | nil => simp [strictlyIncreasing]
      | cons b rs =>
          rw [List.chain'_cons, ← ih]
          simp [strictlyIncreasing]

theorem sparse_inv_pairwise {F : Type} [Zero F] [DecidableEq F]
    (s : SparsePolynomial F) (hs : s.inv) :
    (s.coeffs.map Prod.fst).Pairwise (· < ·) :=
  List.chain'_iff_pairwise.mp ((strictlyIncreasing_chain' _).mp hs.1)

theorem sparse_inv_nodup {F : Type} [Zero F] [DecidableEq F]
    (s : SparsePolynomial F) (hs : s.inv) : (s.coeffs.map Prod.fst).Nodup :=
  (sparse_inv_pairwise s hs).nodup

theorem sparse_inv_le_degree {F : Type} [Zero F] [DecidableEq F]
    (s : SparsePolynomial F) (hs : s.inv) (ic : Nat × F) (hm : ic ∈ s.coeffs) :
    ic.1 ≤ s.degree := by
  have hpw := sparse_inv_pairwise s hs
  have hmem : ic.1 ∈ s.coeffs.map Prod.fst := List.mem_map_of_mem _ hm
  have hne : s.coeffs ≠ [] := by
    intro hcon; rw [hcon] at hm; simp at hm
  cases hl : s.coeffs.getLast? with
  | none => exact absurd (List.getLast?_eq_none_iff.mp hl) hne
  | some jc =>
      have hlm : (s.coeffs.map Prod.fst).getLast? = some jc.1 := by
        rw [List.getLast?_map, hl]; rfl
      have := pairwise_lt_le_getLast hpw hmem hlm
      simpa [SparsePolynomial.degree, hl] using this

theorem sparseToDense_coeff {F : Type} [AddMonoid F] [DecidableEq F]
    (s : SparsePolynomial F) (hs : s.inv) (n : Nat) :
    denseCoeff (sparseToDense s).coeffs n = pairCoeff s.coeffs n := by
  have hnd := sparse_inv_nodup s hs
  unfold sparseToDense DensePolynomial.from_coefficients_vec denseCoeff
  rw [trimZeros_getD]
  by_cases hn : n ∈ s.coeffs.map Prod.fst
  · obtain ⟨ic, hic, hfst⟩ := List.mem_map.mp hn
    rw [← hfst]
    rw [writeFold_mem s.coeffs _ hnd ic hic
        (by rw [List.length_replicate]
            have := sparse_inv_le_degree s hs ic hic
            omega),
      pairCoeff_mem s.coeffs hnd ic hic]
  · rw [writeFold_not_mem _ _ _ hn, pairCoeff_not_mem _ _ hn]
    simp only [List.getD_eq_getElem?_getD, List.getElem?_replicate]
    by_cases h : n < s.degree + 1 <;> simp [h]

/-! ## Bit-length lemmas -/

theorem bitLen_le_iff :
    ∀ (fuel n : Nat), n ≤ fuel → ∀ k, bitLen fuel n ≤ k ↔ n < 2 ^ k := by
  intro fuel
  induction fuel with
  | zero =>
      intro n hn k
      have : n = 0 := by omega
      subst this
      simp [bitLen, Nat.pos_pow_of_pos]
  | succ fuel ih =>
      intro n hn k
      cases n with
      | zero =>
          simp [bitLen, Nat.pos_pow_of_pos]
      | succ m =>
          have hhalf : (m + 1) / 2 ≤ fuel := by omega
          cases k with
          | zero =>
              simp [bitLen]
          | succ k =>
              have hiter := ih ((m + 1) / 2) hhalf k
              have hpow : (2 : Nat) ^ (k + 1) = 2 * 2 ^ k := by ring
              simp only [bitLen, Nat.add_le_add_iff_right, hiter, hpow]
              omega

theorem sizeInBits_le_iff (p k : Nat) : sizeInBits p ≤ k ↔ p < 2 ^ k :=
  bitLen_le_iff p p le_rfl k

theorem lt_sizeInBits_iff (p k : Nat) : k < sizeInBits p ↔ 2 ^ k ≤ p := by
  rw [← not_iff_not]
  push_neg
  exact sizeInBits_le_iff p k

/-! ## More bit-vector lemmas -/

theorem mod_two_pow_succ (v k : Nat) :
    v % 2 ^ (k + 1) = 2 * (v / 2 % 2 ^ k) + v % 2 := by
  have hd : v / 2 % 2 ^ k = v % (2 * 2 ^ k) / 2 := (Nat.mod_mul_right_div_self v 2 (2 ^ k)).symm
  have hp : (2 : Nat) ^ (k + 1) = 2 * 2 ^ k := by ring
  have hm : v % (2 * 2 ^ k) % 2 = v % 2 := Nat.mod_mod_of_dvd v ⟨2 ^ k, rfl⟩
  rw [hp, hd]
  omega

theorem natBitsLE_dropLast (k v : Nat) :
    (natBitsLE (k + 1) v).dropLast = natBitsLE k v := by
  induction k generalizing v with
  | zero => rfl
  | succ k ih =>
      show ((v % 2 == 1) :: natBitsLE (k + 1) (v / 2)).dropLast =
        (v % 2 == 1) :: natBitsLE k (v / 2)
      rw [show natBitsLE (k + 1) (v / 2) =
          (v / 2 % 2 == 1) :: natBitsLE k (v / 2 / 2) from rfl,
        List.dropLast_cons₂,
        ← show natBitsLE (k + 1) (v / 2) =
          (v / 2 % 2 == 1) :: natBitsLE k (v / 2 / 2) from rfl,
        ih]

theorem natBitsLE_getLast (k v : Nat) :
    (natBitsLE (k + 1) v).getLast? = some (v / 2 ^ k % 2 == 1) := by
  induction k generalizing v with
  | zero => simp [natBitsLE]
  | succ k ih =>
      show ((v % 2 == 1) :: natBitsLE (k + 1) (v / 2)).getLast? = _
      rw [show natBitsLE (k + 1) (v / 2) =
          (v / 2 % 2 == 1) :: natBitsLE k (v / 2 / 2) from rfl,
        List.getLast?_cons_cons,
        ← show natBitsLE (k + 1) (v / 2) =
          (v / 2 % 2 == 1) :: natBitsLE k (v / 2 / 2) from rfl,
        ih, Nat.div_div_eq_div_mul,
        show (2 : Nat) * 2 ^ k = 2 ^ (k + 1) from by ring]

theorem natBitsLE_take (j k v : Nat) :
    (natBitsLE (j + k) v).take j = natBitsLE j v := by
  induction j generalizing v with
  | zero => rfl
  | succ j ih =>
      rw [show j + 1 + k = (j + k) + 1 from by omega]
      show ((v % 2 == 1) :: natBitsLE (j + k) (v / 2)).take (j + 1) =
        (v % 2 == 1) :: natBitsLE j (v / 2)
      rw [List.take_succ_cons, ih]

theorem natBitsLE_drop (j k v : Nat) :
    (natBitsLE (j + k) v).drop j = natBitsLE k (v / 2 ^ j) := by
  induction j generalizing v with
  | zero => simp
  | succ j ih =>
      rw [show j + 1 + k = (j + k) + 1 from by omega]
      show ((v % 2 == 1) :: natBitsLE (j + k) (v / 2)).drop (j + 1) =
        natBitsLE k (v / 2 ^ (j + 1))
      rw [List.drop_succ_cons, ih, Nat.div_div_eq_div_mul,
        show (2 : Nat) * 2 ^ j = 2 ^ (j + 1) from by ring]

theorem intComplement_eq (W v : Nat) :
    intComplement W v = 2 ^ W - 1 - v % 2 ^ W := by
  unfold intComplement
  induction W generalizing v with
  | zero => simp [natBitsLE, bitsToNat]
  | succ W ih =>
      have hsplit := mod_two_pow_succ v W
      have hm : v / 2 % 2 ^ W < 2 ^ W := Nat.mod_lt _ (Nat.pos_pow_of_pos W (by omega))
      have hpw : (0 : Nat) < 2 ^ W := Nat.pos_pow_of_pos W (by omega)
      have hpow : (2 : Nat) ^ (W + 1) = 2 * 2 ^ W := by ring
      rcases Nat.even_or_odd v with h | h
      · have h2 : v % 2 = 0 := Nat.even_iff.mp h
        simp only [natBitsLE, h2, Nat.reduceBEq, List.map_cons, Bool.not_false,
          bitsToNat, if_true, ih]
        omega
      · have h2 : v % 2 = 1 := Nat.odd_iff.mp h
        simp only [natBitsLE, h2, Nat.reduceBEq, List.map_cons, Bool.not_true,
          bitsToNat, if_false, Bool.false_eq_true, ih]
        omega

theorem foldl_or_eq_any (l : List Bool) (acc : Bool) :
    l.foldl (fun a b => a || b) acc = (acc || l.any (fun b => b)) := by
  induction l generalizing acc with
  | nil => simp
  | cons b rest ih =>
      simp [ih, Bool.or_assoc]

theorem bitsToNat_eq_zero_iff (l : List Bool) :
    bitsToNat l = 0 ↔ l.any (fun b => b) = false := by
  induction l with
  | nil => simp [bitsToNat]
  | cons b rest ih =>
      cases b
      · simp [bitsToNat, ih]
      · simp [bitsToNat, ih]

/-! ## Integer gadget arithmetic lemmas -/

theorem intToField_lt (p W v : Nat) (hv : v < 2 ^ W) :
    intToField p W v = ((v : Nat) : ZMod p) := by
  unfold intToField
  rw [bitsAccum_zero_one, bitsToNat_natBitsLE, Nat.mod_eq_of_lt hv]

theorem sub_field_value (p W a b : Nat) (ha : a < 2 ^ W) (hb : b < 2 ^ W) :
    (intToField p W a + intToField p W (intComplement W b) + 1 : ZMod p) =
      ((a + 2 ^ W - b : Nat) : ZMod p) := by
  have hpw : (0 : Nat) < 2 ^ W := Nat.pos_pow_of_pos W (by omega)
  have hc : intComplement W b = 2 ^ W - 1 - b := by
    rw [intComplement_eq, Nat.mod_eq_of_lt hb]
  have h1 := intToField_lt p W a ha
  have h2 : intToField p W (intComplement W b) = ((2 ^ W - 1 - b : Nat) : ZMod p) := by
    rw [hc]
    exact intToField_lt p W _ (by omega)
  have hn : a + (2 ^ W - 1 - b) + 1 = a + 2 ^ W - b := by omega
  rw [h1, h2]
  calc ((a : Nat) : ZMod p) + ((2 ^ W - 1 - b : Nat) : ZMod p) + 1
      = ((a + (2 ^ W - 1 - b) + 1 : Nat) : ZMod p) := by push_cast; ring
    _ = ((a + 2 ^ W - b : Nat) : ZMod p) := by rw [hn]

theorem to_lower_bits_on_value (p k v : Nat) (hv : v < 2 ^ k) (hp : 2 ^ k ≤ p) :
    to_lower_bits_le p ((v : Nat) : ZMod p) k =
      some (natBitsLE k v, [Gate.mk ((v : Nat) : ZMod p) 1 ((v : Nat) : ZMod p)]) := by
  have hnone : ¬ (k > sizeInBits p) := by
    have := (lt_sizeInBits_iff p k).mpr hp
    omega
  have hval : ZMod.val ((v : Nat) : ZMod p) = v :=
    ZMod.val_cast_of_lt (lt_of_lt_of_le hv hp)
  unfold to_lower_bits_le
  rw [if_neg hnone]
  show some (natBitsLE k (ZMod.val ((v : Nat) : ZMod p)),
      [Gate.mk ((v : Nat) : ZMod p) 1
        (bitsAccum p (natBitsLE k (ZMod.val ((v : Nat) : ZMod p))) 0 1)]) = _
  rw [hval, bitsAccum_zero_one, bitsToNat_natBitsLE, Nat.mod_eq_of_lt hv]

theorem carry_eq (W a b : Nat) (ha : a < 2 ^ W) (hb : b < 2 ^ W) :
    ((a + 2 ^ W - b) / 2 ^ W % 2 == 1) = decide (b ≤ a) := by
  have hpw : (0 : Nat) < 2 ^ W := Nat.pos_pow_of_pos W (by omega)
  by_cases h : b ≤ a
  · have hdiv : (a + 2 ^ W - b) / 2 ^ W = 1 := by
      have hv : a + 2 ^ W - b = (a - b) + 2 ^ W := by omega
      rw [hv, Nat.add_div_right _ hpw, Nat.div_eq_of_lt (by omega)]
    simp [hdiv, h]
  · have hdiv : (a + 2 ^ W - b) / 2 ^ W = 0 := Nat.div_eq_of_lt (by omega)
    simp [hdiv, h]

theorem wrappingSub_eq (W a b : Nat) (hb : b < 2 ^ W) :
    (a + 2 ^ W - b) % 2 ^ W = wrappingSub W a b := by
  unfold wrappingSub
  have : a + 2 ^ W - b = a + (2 ^ W - b) := by omega
  rw [this]

theorem overflow_bits_or (W q : Nat) (hq : q < 2 ^ W) :
    (natBitsLE W q).foldl (fun a b => a || b) false = decide (q ≠ 0) := by
  have hb : bitsToNat (natBitsLE W q) = q := by
    rw [bitsToNat_natBitsLE, Nat.mod_eq_of_lt hq]
  rw [foldl_or_eq_any]
  by_cases h : q = 0
  · have hany : (natBitsLE W q).any (fun b => b) = false :=
      (bitsToNat_eq_zero_iff _).mp (by rw [hb, h])
    rw [hany]
    simp [h]
  · have hne : ¬ ((natBitsLE W q).any (fun b => b) = false) := by
      intro hcon
      exact h (by rw [← hb]; exact (bitsToNat_eq_zero_iff _).mpr hcon)
    have hany : (natBitsLE W q).any (fun b => b) = true := by
      cases hh : (natBitsLE W q).any (fun b => b)
      · exact absurd hh hne
      · rfl
    rw [hany]
    simp [h]

theorem mulWithCarry_eq (p W : Nat) (x y : IntegerVar p W)
    (hp : 2 ^ (2 * W) ≤ p) (hx : x.val < 2 ^ W) (hy : y.val < 2 ^ W) :
    mulWithCarry p W x y =
      (IntegerVar.mk Mode.Private (x.val * y.val % 2 ^ W),
       natBitsLE W (x.val * y.val / 2 ^ W),
       [Gate.mk ((x.val : Nat) : ZMod p) ((y.val : Nat) : ZMod p)
          ((x.val * y.val : Nat) : ZMod p),
        Gate.mk ((x.val * y.val : Nat) : ZMod p) 1
          ((x.val * y.val : Nat) : ZMod p)]) := by
  have hxy : x.val * y.val < 2 ^ (2 * W) := by
    have := Nat.mul_lt_mul'' hx hy
    calc x.val * y.val < 2 ^ W * 2 ^ W := this
      _ = 2 ^ (2 * W) := by rw [← pow_add, two_mul]
  have hxf := intToField_lt p W x.val hx
  have hyf := intToField_lt p W y.val hy
  have hprod : (intToField p W x.val * intToField p W y.val : ZMod p) =
      ((x.val * y.val : Nat) : ZMod p) := by
    rw [hxf, hyf, Nat.cast_mul]
  have hval : ZMod.val ((x.val * y.val : Nat) : ZMod p) = x.val * y.val :=
    ZMod.val_cast_of_lt (lt_of_lt_of_le hxy hp)
  unfold mulWithCarry
  show (IntegerVar.mk Mode.Private
      (bitsToNat ((natBitsLE (2 * W)
        (ZMod.val (intToField p W x.val * intToField p W y.val))).take W)),
    (natBitsLE (2 * W)
      (ZMod.val (intToField p W x.val * intToField p W y.val))).drop W,
    [Gate.mk (intToField p W x.val) (intToField p W y.val)
       (intToField p W x.val * intToField p W y.val),
     Gate.mk (intToField p W x.val * intToField p W y.val) 1
       (bitsAccum p (natBitsLE (2 * W)
         (ZMod.val (intToField p W x.val * intToField p W y.val))) 0 1)]) = _
  rw [hprod, hval]
  rw [two_mul] at hxy ⊢
  rw [natBitsLE_take, natBitsLE_drop, bitsToNat_natBitsLE,
    bitsAccum_zero_one, bitsToNat_natBitsLE, Nat.mod_eq_of_lt hxy, hxf, hyf]

/-! ## Convolution (mulCoeff) lemmas -/

theorem mulCoeff_congr {F : Type} [Semiring F] (f f' g : Nat → F) (n : Nat)
    (h : ∀ i, f i = f' i) : mulCoeff f g n = mulCoeff f' g n := by
  unfold mulCoeff
  exact Finset.sum_congr rfl (fun i _ => by rw [h i])

theorem mulCoeff_zero {F : Type} [Semiring F] (f g : Nat → F) (n : Nat)
    (h : ∀ i, f i = 0) : mulCoeff f g n = 0 := by
  unfold mulCoeff
  exact Finset.sum_eq_zero (fun i _ => by rw [h i, zero_mul])

theorem mulCoeff_add_left {F : Type} [Semiring F] (f h g : Nat → F) (n : Nat) :
    mulCoeff (fun i => f i + h i) g n = mulCoeff f g n + mulCoeff h g n := by
  unfold mulCoeff
  rw [← Finset.sum_add_distrib]
  exact Finset.sum_congr rfl (fun i _ => add_mul _ _ _)

theorem mulCoeff_single {F : Type} [Semiring F] (k : Nat) (c : F) (g : Nat → F)
    (n : Nat) :
    mulCoeff (fun i => if i = k then c else 0) g n =
      if k ≤ n then c * g (n - k) else 0 := by
  unfold mulCoeff
  have hterm : ∀ i, (if i = k then c else 0) * g (n - i) =
      if i = k then c * g (n - i) else 0 := by
    intro i
    by_cases h : i = k <;> simp [h]
  calc (∑ i ∈ Finset.range (n + 1), (if i = k then c else 0) * g (n - i))
      = ∑ i ∈ Finset.range (n + 1), if i = k then c * g (n - i) else 0 :=
        Finset.sum_congr rfl (fun i _ => hterm i)
    _ = if k ∈ Finset.range (n + 1) then c * g (n - k) else 0 :=
        Finset.sum_ite_eq' _ k (fun i => c * g (n - i))
    _ = if k ≤ n then c * g (n - k) else 0 := by
        by_cases h : k ≤ n
        · simp [Finset.mem_range, Nat.lt_succ_iff, h]
        · simp [Finset.mem_range, Nat.lt_succ_iff, h]

/-! ## Division-step lemmas -/

theorem divStep_length {F : Type} [Field F] :
    ∀ (pairs : List (Nat × F)) (qc : F) (k : Nat) (rem : List F),
      (divStep pairs qc k rem).length = rem.length := by
  intro pairs
  induction pairs with
  | nil => intro qc k rem; rfl
  | cons ic rest ih =>
      intro qc k rem
      show (divStep rest qc k _).length = _
      rw [ih, List.length_set]

theorem divStep_getD {F : Type} [Field F] :
    ∀ (pairs : List (Nat × F)) (qc : F) (k : Nat) (rem : List F),
      (∀ ic ∈ pairs, k + ic.1 < rem.length) →
      ∀ n, (divStep pairs qc k rem).getD n 0 =
        rem.getD n 0 - qc * (if k ≤ n then pairCoeff pairs (n - k) else 0) := by
  intro pairs
  induction pairs with
  | nil =>
      intro qc k rem _ n
      simp [divStep, pairCoeff]
  | cons ic rest ih =>
      intro qc k rem hb n
      have hlen : k + ic.1 < rem.length := hb ic (List.mem_cons_self ic rest)
      have hstep : divStep (ic :: rest) qc k rem =
          divStep rest qc k (rem.set (k + ic.1) (rem.getD (k + ic.1) 0 - qc * ic.2)) := rfl
      rw [hstep, ih qc k _ (by
        intro jc hjc
        rw [List.length_set]
        exact hb jc (List.mem_cons_of_mem ic hjc)) n]
      by_cases hn : n = k + ic.1
      · subst hn
        rw [getD_set_self _ _ _ _ hlen]
        have hk : k ≤ k + ic.1 := Nat.le_add_right k ic.1
        rw [if_pos hk, if_pos hk]
        have hsub : k + ic.1 - k = ic.1 := by omega
        rw [hsub]
        show rem.getD (k + ic.1) 0 - qc * ic.2 - qc * pairCoeff rest ic.1 =
          rem.getD (k + ic.1) 0 - qc * ((if ic.1 = ic.1 then ic.2 else 0) + pairCoeff rest ic.1)
        rw [if_pos rfl]
        ring
      · rw [getD_set_ne _ _ _ (fun hcon => hn hcon.symm)]
        by_cases hk : k ≤ n
        · rw [if_pos hk, if_pos hk]
          have hne : ¬ (n - k = ic.1) := by omega
          show rem.getD n 0 - qc * pairCoeff rest (n - k) =
            rem.getD n 0 - qc * ((if n - k = ic.1 then ic.2 else 0) + pairCoeff rest (n - k))
          rw [if_neg hne]
          ring
        · rw [if_neg hk, if_neg hk]

/-! ## Divisor coefficient-function facts -/

theorem pairCoeff_enumFrom {F : Type} [AddMonoid F] :
    ∀ (l : List F) (j n : Nat),
      pairCoeff (List.enumFrom j l) n =
        if j ≤ n then denseCoeff l (n - j) else 0 := by
  intro l
  induction l with
  | nil =>
      intro j n
      simp [pairCoeff, denseCoeff]
  | cons c rest ih =>
      intro j n
      rw [List.enumFrom_cons]
      show (if n = j then c else 0) + pairCoeff (List.enumFrom (j + 1) rest) n = _
      rw [ih (j + 1) n]
      by_cases h1 : n = j
      · subst h1
        rw [if_pos rfl, if_neg (by omega), if_pos (le_refl n)]
        simp [denseCoeff]
      · rw [if_neg h1]
        by_cases h2 : j ≤ n
        · have h3 : j + 1 ≤ n := by omega
          rw [if_pos h3, if_pos h2, zero_add]
          have h4 : n - j = (n - (j + 1)) + 1 := by omega
          rw [h4]
          simp [denseCoeff]
        · rw [if_neg (by omega), if_neg h2, zero_add]

theorem pairCoeff_enum {F : Type} [AddMonoid F] (l : List F) (n : Nat) :
    pairCoeff l.enum n = denseCoeff l n := by
  show pairCoeff (List.enumFrom 0 l) n = denseCoeff l n
  rw [pairCoeff_enumFrom, if_pos (Nat.zero_le n)]
  rfl

theorem getLast?_of_ne_nil {α : Type} (l : List α) (d : α) (h : l ≠ []) :
    l.getLast? = some (l.getD (l.length - 1) d) := by
  rcases hl : l.getLast? with _ | a
  · exact absurd (List.getLast?_eq_none_iff.mp hl) h
  · rw [getD_length_sub_one, hl]
    rfl

theorem dense_ne_nil_of_not_zero {F : Type} (d : DensePolynomial F)
    (hnz : d.is_zero = false) : d.coeffs ≠ [] := by
  intro hcon
  rw [DensePolynomial.is_zero, hcon] at hnz
  simp at hnz

theorem sparse_ne_nil_of_not_zero {F : Type} (s : SparsePolynomial F)
    (hnz : s.is_zero = false) : s.coeffs ≠ [] := by
  intro hcon
  rw [SparsePolynomial.is_zero, hcon] at hnz
  simp at hnz

theorem pairsOf_coeff {F : Type} [AddMonoid F] (x : DenseOrSparsePolynomial F)
    (n : Nat) : pairCoeff (pairsOf x) n = dosCoeff x n := by
  cases x with
  | SPolynomial s => rfl
  | DPolynomial d => exact pairCoeff_enum d.coeffs n

theorem pairsOf_deg_le {F : Type} [Zero F] [DecidableEq F]
    (x : DenseOrSparsePolynomial F) (hinv : x.inv) (hnz : x.is_zero = false) :
    ∀ ic ∈ pairsOf x, ic.1 ≤ x.degree := by
  cases x with
  | SPolynomial s => exact fun ic hm => sparse_inv_le_degree s hinv ic hm
  | DPolynomial d =>
      rintro ⟨i, c⟩ hm
      have h := List.mem_enumFrom hm
      have hne : d.coeffs ≠ [] := dense_ne_nil_of_not_zero d hnz
      have hpos : 0 < d.coeffs.length := List.length_pos.mpr hne
      show i ≤ d.coeffs.length - 1
      omega

theorem dos_lead_coeff {F : Type} [AddMonoid F] [DecidableEq F]
    (x : DenseOrSparsePolynomial F) (hinv : x.inv) (lc : F)
    (hlc : x.leading_coefficient = some lc) : dosCoeff x x.degree = lc := by
  cases x with
  | DPolynomial d =>
      show denseCoeff d.coeffs (d.coeffs.length - 1) = lc
      unfold denseCoeff
      rw [getD_length_sub_one]
      have hl : d.coeffs.getLast? = some lc := hlc
      rw [hl]
      rfl
  | SPolynomial s =>
      have hlc2 : (s.coeffs.getLast?).map Prod.snd = some lc := hlc
      rcases hl : s.coeffs.getLast? with _ | jc
      · rw [hl] at hlc2
        simp at hlc2
      · rw [hl] at hlc2
        have hlc3 : jc.2 = lc := Option.some.inj hlc2
        have hdeg : (DenseOrSparsePolynomial.SPolynomial s).degree = jc.1 := by
          simp [DenseOrSparsePolynomial.degree, SparsePolynomial.degree, hl]
        have hjm : jc ∈ s.coeffs := by
          have h2 := List.getLast?_eq_getElem? s.coeffs
          rw [h2] at hl
          exact List.getElem?_mem hl
        show pairCoeff s.coeffs (DenseOrSparsePolynomial.SPolynomial s).degree = lc
        rw [hdeg, pairCoeff_mem s.coeffs (sparse_inv_nodup s hinv) jc hjm, hlc3]

theorem dos_coeff_gt_degree {F : Type} [AddMonoid F] [DecidableEq F]
    (x : DenseOrSparsePolynomial F) (hinv : x.inv) (hnz : x.is_zero = false)
    (n : Nat) (hn : x.degree < n) : dosCoeff x n = 0 := by
  cases x with
  | DPolynomial d =>
      show denseCoeff d.coeffs n = 0
      apply List.getD_eq_default
      have hpos : 0 < d.coeffs.length :=
        List.length_pos.mpr (dense_ne_nil_of_not_zero d hnz)
      have hdeg : (DenseOrSparsePolynomial.DPolynomial d).degree =
        d.coeffs.length - 1 := rfl
      omega
  | SPolynomial s =>
      apply pairCoeff_not_mem
      intro hmem
      rcases List.mem_map.mp hmem with ⟨ic, hic, hfst⟩
      have hle := sparse_inv_le_degree s hinv ic hic
      have hdeg : (DenseOrSparsePolynomial.SPolynomial s).degree = s.degree := rfl
      omega

theorem into_dense_coeff {F : Type} [AddMonoid F] [DecidableEq F]
    (x : DenseOrSparsePolynomial F) (hx : x.inv) (n : Nat) :
    denseCoeff x.into_dense.coeffs n = dosCoeff x n := by
  cases x with
  | DPolynomial d => rfl
  | SPolynomial s => exact sparseToDense_coeff s hx n

theorem sparseToDense_length {F : Type} [AddMonoid F] [DecidableEq F]
    (s : SparsePolynomial F) (hs : s.inv) (hnz : s.is_zero = false) :
    (sparseToDense s).coeffs.length = s.degree + 1 := by
  have hne : s.coeffs ≠ [] := sparse_ne_nil_of_not_zero s hnz
  obtain ⟨jc, hl⟩ : ∃ jc, s.coeffs.getLast? = some jc := by
    rcases hl2 : s.coeffs.getLast? with _ | jc
    · exact absurd (List.getLast?_eq_none_iff.mp hl2) hne
    · exact ⟨jc, rfl⟩
  have hdeg : s.degree = jc.1 := by simp [SparsePolynomial.degree, hl]
  have hjm : jc ∈ s.coeffs := by
    have h2 := List.getLast?_eq_getElem? s.coeffs
    rw [h2] at hl
    exact List.getElem?_mem hl
  have hwlen : (List.foldl (fun acc ic => acc.set ic.1 ic.2)
      (List.replicate (s.degree + 1) (0 : F)) s.coeffs).length = s.degree + 1 := by
    rw [writeFold_length, List.length_replicate]
  have htop : (List.foldl (fun acc ic => acc.set ic.1 ic.2)
      (List.replicate (s.degree + 1) (0 : F)) s.coeffs).getD jc.1 0 = jc.2 :=
    writeFold_mem s.coeffs _ (sparse_inv_nodup s hs) jc hjm
      (by rw [List.length_replicate]; omega)
  have hlast : lastNonzero (List.foldl (fun acc ic => acc.set ic.1 ic.2)
      (List.replicate (s.degree + 1) (0 : F)) s.coeffs) = true := by
    unfold lastNonzero
    rw [getLast?_of_ne_nil _ (0 : F) (List.length_pos.mp (by rw [hwlen]; omega))]
    have hidx : (List.foldl (fun acc ic => acc.set ic.1 ic.2)
        (List.replicate (s.degree + 1) (0 : F)) s.coeffs).length - 1 = jc.1 := by
      rw [hwlen]
      omega
    rw [hidx, htop]
    simp
    exact hs.2 jc hjm
  show (trimZeros (List.foldl (fun acc ic => acc.set ic.1 ic.2)
      (List.replicate (s.degree + 1) (0 : F)) s.coeffs)).length = s.degree + 1
  rw [trimZeros_of_lastNonzero _ hlast, hwlen]

theorem into_dense_canonical {F : Type} [AddMonoid F] [DecidableEq F]
    (x : DenseOrSparsePolynomial F) (hx : x.inv) (hnz : x.is_zero = false) :
    x.into_dense.coeffs ≠ [] ∧ lastNonzero x.into_dense.coeffs = true ∧
    x.into_dense.coeffs.length = x.degree + 1 := by
  cases x with
  | DPolynomial d =>
      have hne : d.coeffs ≠ [] := dense_ne_nil_of_not_zero d hnz
      refine ⟨hne, hx, ?_⟩
      show d.coeffs.length = d.coeffs.length - 1 + 1
      have := List.length_pos.mpr hne
      omega
  | SPolynomial s =>
      have hlen := sparseToDense_length s hx hnz
      refine ⟨?_, ?_, hlen⟩
      · show (sparseToDense s).coeffs ≠ []
        exact List.length_pos.mp (by rw [hlen]; omega)
      show lastNonzero (trimZeros (List.foldl (fun acc ic => acc.set ic.1 ic.2)
        (List.replicate (s.degree + 1) (0 : F)) s.coeffs)) = true
      exact trimZeros_lastNonzero _

/-! ## One iteration of the division loop -/

theorem div_loop_step {F : Type} [Field F] [DecidableEq F]
    (divisor : DenseOrSparsePolynomial F) (hinv : divisor.inv)
    (hnz : divisor.is_zero = false) (lc : F)
    (hlc : divisor.leading_coefficient = some lc)
    (q rem : List F) (k : Nat) (qc : F)
    (hkdeg : k + divisor.degree + 1 = rem.length)
    (hqclc : qc * lc = rem.getD (rem.length - 1) 0)
    (hklen : k < q.length)
    (hq0 : q.getD k 0 = 0) :
    (∀ n, mulCoeff (denseCoeff (q.set k qc)) (dosCoeff divisor) n +
        denseCoeff (trimZeros (divStep (pairsOf divisor) qc k rem)) n =
      mulCoeff (denseCoeff q) (dosCoeff divisor) n + denseCoeff rem n) ∧
    (trimZeros (divStep (pairsOf divisor) qc k rem)).length < rem.length := by
  have hbound : ∀ ic ∈ pairsOf divisor, k + ic.1 < rem.length := by
    intro ic hm
    have := pairsOf_deg_le divisor hinv hnz ic hm
    omega
  have hds := divStep_getD (pairsOf divisor) qc k rem hbound
  have hlast0 : (divStep (pairsOf divisor) qc k rem).getD (rem.length - 1) 0 = 0 := by
    rw [hds (rem.length - 1), if_pos (by omega)]
    have h1 : rem.length - 1 - k = divisor.degree := by omega
    rw [h1, pairsOf_coeff, dos_lead_coeff divisor hinv lc hlc, ← hqclc]
    ring
  constructor
  · intro n
    have hrem : denseCoeff (trimZeros (divStep (pairsOf divisor) qc k rem)) n =
        denseCoeff rem n -
          qc * (if k ≤ n then dosCoeff divisor (n - k) else 0) := by
      unfold denseCoeff
      rw [trimZeros_getD, hds n, pairsOf_coeff]
    have hqfn : ∀ i, (q.set k qc).getD i 0 =
        q.getD i 0 + (if i = k then qc else 0) := by
      intro i
      by_cases hik : i = k
      · subst hik
        rw [getD_set_self _ _ _ _ hklen, hq0, if_pos rfl, zero_add]
      · rw [getD_set_ne _ _ _ (fun hcon => hik hcon.symm), if_neg hik, add_zero]
    have hmul : mulCoeff (denseCoeff (q.set k qc)) (dosCoeff divisor) n =
        mulCoeff (denseCoeff q) (dosCoeff divisor) n +
          (if k ≤ n then qc * dosCoeff divisor (n - k) else 0) := by
      rw [mulCoeff_congr (denseCoeff (q.set k qc))
          (fun i => q.getD i 0 + (if i = k then qc else 0)) (dosCoeff divisor) n hqfn,
        mulCoeff_add_left, mulCoeff_single]
      rfl
    rw [hmul, hrem]
    by_cases hkn : k ≤ n
    · rw [if_pos hkn, if_pos hkn]
      ring
    · rw [if_neg hkn, if_neg hkn]
      ring
  · have hdslen := divStep_length (pairsOf divisor) qc k rem
    have hdsne : divStep (pairsOf divisor) qc k rem ≠ [] := by
      intro hcon
      rw [hcon] at hdslen
      simp at hdslen
      omega
    have hlast : (divStep (pairsOf divisor) qc k rem).getLast? = some 0 := by
      rw [getLast?_of_ne_nil _ 0 hdsne, hdslen, hlast0]
    have hlt := trimZeros_length_lt _ hlast
    rw [hdslen] at hlt
    exact hlt

/-! ## The division loop: invariant, exit condition, and quotient shape -/

theorem divideLoop_spec {F : Type} [Field F] [DecidableEq F]
    (divisor : DenseOrSparsePolynomial F) (hinv : divisor.inv)
    (hnz : divisor.is_zero = false) (lc : F)
    (hlc : divisor.leading_coefficient = some lc) (hlc0 : lc ≠ 0) :
    ∀ (fuel : Nat) (q rem q' rem' : List F),
      divideLoop divisor lc⁻¹ fuel q rem = (q', rem') →
      rem.length ≤ fuel →
      lastNonzero rem = true →
      rem.length ≤ q.length + divisor.degree →
      (∀ j, j + divisor.degree + 1 ≤ rem.length → q.getD j 0 = 0) →
      (∀ n, mulCoeff (denseCoeff q') (dosCoeff divisor) n + denseCoeff rem' n =
        mulCoeff (denseCoeff q) (dosCoeff divisor) n + denseCoeff rem n) ∧
      (rem' = [] ∨ rem'.length - 1 < divisor.degree) ∧
      lastNonzero rem' = true ∧
      q'.length = q.length ∧
      (∀ j, rem.length ≤ j + divisor.degree → q'.getD j 0 = q.getD j 0) ∧
      (rem ≠ [] → divisor.degree ≤ rem.length - 1 →
        q'.getD (rem.length - 1 - divisor.degree) 0 =
          rem.getLast?.getD 0 * lc⁻¹) := by
  intro fuel
  induction fuel with
  | zero =>
      intro q rem q' rem' hres hfuel hcanon hqlen hq0
      have hrem : rem = [] := by
        cases rem with
        | nil => rfl
        | cons a l => simp at hfuel
      subst hrem
      have hres2 : (q, ([] : List F)) = (q', rem') := hres
      injection hres2 with h1 h2
      subst h1
      subst h2
      exact ⟨fun n => rfl, Or.inl rfl, hcanon, rfl, fun j _ => rfl,
        fun hne _ => absurd rfl hne⟩
  | succ fuel ih =>
      intro q rem q' rem' hres hfuel hcanon hqlen hq0
      by_cases hcond : rem ≠ [] ∧ divisor.degree ≤ rem.length - 1
      · obtain ⟨hne, hdeg⟩ := hcond
        have hlen1 : 0 < rem.length := List.length_pos.mpr hne
        have hkdeg : (rem.length - 1 - divisor.degree) + divisor.degree + 1 =
            rem.length := by omega
        have hklen : rem.length - 1 - divisor.degree < q.length := by omega
        have hq0k : q.getD (rem.length - 1 - divisor.degree) 0 = 0 :=
          hq0 _ (by omega)
        have hqclc : (rem.getLast?.getD 0 * lc⁻¹) * lc =
            rem.getD (rem.length - 1) 0 := by
          rw [mul_assoc, inv_mul_cancel₀ hlc0, mul_one, getD_length_sub_one]
        have hstep := div_loop_step divisor hinv hnz lc hlc q rem
          (rem.length - 1 - divisor.degree) (rem.getLast?.getD 0 * lc⁻¹)
          hkdeg hqclc hklen hq0k
        have hlt := hstep.2
        have hunf : divideLoop divisor lc⁻¹ (fuel + 1) q rem =
            divideLoop divisor lc⁻¹ fuel
              (q.set (rem.length - 1 - divisor.degree) (rem.getLast?.getD 0 * lc⁻¹))
              (trimZeros (divStep (pairsOf divisor) (rem.getLast?.getD 0 * lc⁻¹)
                (rem.length - 1 - divisor.degree) rem)) := by
          have hif : divideLoop divisor lc⁻¹ (fuel + 1) q rem =
              if rem ≠ [] ∧ divisor.degree ≤ rem.length - 1 then
                divideLoop divisor lc⁻¹ fuel
                  (q.set (rem.length - 1 - divisor.degree)
                    (rem.getLast?.getD 0 * lc⁻¹))
                  (trimZeros (divStep (pairsOf divisor)
                    (rem.getLast?.getD 0 * lc⁻¹)
                    (rem.length - 1 - divisor.degree) rem))
              else (q, rem) := rfl
          rw [hif, if_pos ⟨hne, hdeg⟩]
        rw [hunf] at hres
        have ihres := ih _ _ _ _ hres (by omega) (trimZeros_lastNonzero _)
          (by rw [List.length_set]; omega)
          (by
            intro j hj
            rw [getD_set_ne _ _ _ (by omega : rem.length - 1 - divisor.degree ≠ j)]
            exact hq0 j (by omega))
        refine ⟨fun n => (ihres.1 n).trans (hstep.1 n), ihres.2.1, ihres.2.2.1,
          ?_, ?_, ?_⟩
        · rw [ihres.2.2.2.1, List.length_set]
        · intro j hj
          rw [ihres.2.2.2.2.1 j (by omega),
            getD_set_ne _ _ _ (by omega : rem.length - 1 - divisor.degree ≠ j)]
        · intro _ _
          rw [ihres.2.2.2.2.1 _ (by omega),
            getD_set_self _ _ _ _ hklen]
      · have hunf : divideLoop divisor lc⁻¹ (fuel + 1) q rem = (q, rem) := by
          have hif : divideLoop divisor lc⁻¹ (fuel + 1) q rem =
              if rem ≠ [] ∧ divisor.degree ≤ rem.length - 1 then
                divideLoop divisor lc⁻¹ fuel
                  (q.set (rem.length - 1 - divisor.degree)
                    (rem.getLast?.getD 0 * lc⁻¹))
                  (trimZeros (divStep (pairsOf divisor)
                    (rem.getLast?.getD 0 * lc⁻¹)
                    (rem.length - 1 - divisor.degree) rem))
              else (q, rem) := rfl
          rw [hif, if_neg hcond]
        rw [hunf] at hres
        injection hres with h1 h2
        subst h1
        subst h2
        refine ⟨fun n => rfl, ?_, hcanon, rfl, fun j _ => rfl, ?_⟩
        · by_cases hrem : rem = []
          · exact Or.inl hrem
          · refine Or.inr ?_
            by_contra hcon
            exact hcond ⟨hrem, by omega⟩
        · intro hne hdeg
          exact absurd ⟨hne, hdeg⟩ hcond

/-! ## Assembling divide_with_q_and_r -/

theorem replicate_getD_zero {F : Type} [Zero F] (m j : Nat) :
    (List.replicate m (0 : F)).getD j 0 = 0 := by
  rw [List.getD_eq_getElem?_getD, List.getElem?_replicate]
  by_cases h : j < m <;> simp [h]

theorem dos_coeff_of_zero {F : Type} [AddMonoid F] (x : DenseOrSparsePolynomial F)
    (hz : x.is_zero = true) (n : Nat) : dosCoeff x n = 0 := by
  cases x with
  | DPolynomial d =>
      have hc : d.coeffs = [] := by
        simpa [DenseOrSparsePolynomial.is_zero, DensePolynomial.is_zero,
          List.isEmpty_iff] using hz
      show denseCoeff d.coeffs n = 0
      rw [hc]
      rfl
  | SPolynomial s =>
      have hc : s.coeffs = [] := by
        simpa [DenseOrSparsePolynomial.is_zero, SparsePolynomial.is_zero,
          List.isEmpty_iff] using hz
      show pairCoeff s.coeffs n = 0
      rw [hc]
      rfl

theorem into_dense_of_zero {F : Type} [AddMonoid F] [DecidableEq F]
    (x : DenseOrSparsePolynomial F) (hz : x.is_zero = true) :
    x.into_dense = DensePolynomial.zero := by
  cases x with
  | DPolynomial d =>
      have hc : d.coeffs = [] := by
        simpa [DenseOrSparsePolynomial.is_zero, DensePolynomial.is_zero,
          List.isEmpty_iff] using hz
      show d = DensePolynomial.zero
      cases d with
      | mk coeffs => exact congrArg DensePolynomial.mk hc
  | SPolynomial s =>
      have hc : s.coeffs = [] := by
        simpa [DenseOrSparsePolynomial.is_zero, SparsePolynomial.is_zero,
          List.isEmpty_iff] using hz
      have hdeg : s.degree = 0 := by simp [SparsePolynomial.degree, hc]
      show sparseToDense s = DensePolynomial.zero
      unfold sparseToDense DensePolynomial.from_coefficients_vec
      rw [hc, hdeg]
      have ht : trimZeros [(0 : F)] = [] := by
        show (if (0 : F) = 0 then [] else [(0 : F)]) = []
        rw [if_pos rfl]
      show DensePolynomial.mk (trimZeros [(0 : F)]) = _
      rw [ht]
      rfl

theorem dos_lead_exists {F : Type} [Zero F] [DecidableEq F]
    (x : DenseOrSparsePolynomial F) (hinv : x.inv) (hnz : x.is_zero = false) :
    ∃ lc, x.leading_coefficient = some lc ∧ lc ≠ 0 := by
  cases x with
  | DPolynomial d =>
      have hne := dense_ne_nil_of_not_zero d hnz
      have ha := getLast?_of_ne_nil d.coeffs 0 hne
      refine ⟨d.coeffs.getD (d.coeffs.length - 1) 0, ha, ?_⟩
      have hln : lastNonzero d.coeffs = true := hinv
      unfold lastNonzero at hln
      rw [ha] at hln
      exact of_decide_eq_true hln
  | SPolynomial s =>
      have hne := sparse_ne_nil_of_not_zero s hnz
      obtain ⟨jc, hjc⟩ : ∃ jc, s.coeffs.getLast? = some jc := by
        rcases h : s.coeffs.getLast? with _ | jc
        · exact absurd (List.getLast?_eq_none_iff.mp h) hne
        · exact ⟨jc, rfl⟩
      have hjm : jc ∈ s.coeffs := by
        have h2 := List.getLast?_eq_getElem? s.coeffs
        rw [h2] at hjc
        exact List.getElem?_mem hjc
      refine ⟨jc.2, ?_, hinv.2 jc hjm⟩
      show (s.coeffs.getLast?).map Prod.snd = some jc.2
      rw [hjc]
      rfl

theorem dos_degree_of_zero {F : Type} (x : DenseOrSparsePolynomial F)
    (hz : x.is_zero = true) : x.degree = 0 := by
  cases x with
  | DPolynomial d =>
      have hc : d.coeffs = [] := by
        simpa [DenseOrSparsePolynomial.is_zero, DensePolynomial.is_zero,
          List.isEmpty_iff] using hz
      show d.coeffs.length - 1 = 0
      rw [hc]
      rfl
  | SPolynomial s =>
      have hc : s.coeffs = [] := by
        simpa [DenseOrSparsePolynomial.is_zero, SparsePolynomial.is_zero,
          List.isEmpty_iff] using hz
      show ((s.coeffs.getLast?).map Prod.fst).getD 0 = 0
      rw [hc]
      rfl

theorem divide_main_eq {F : Type} [Field F] [DecidableEq F]
    (self divisor : DenseOrSparsePolynomial F)
    (hz : self.is_zero = false) (hnz : divisor.is_zero = false)
    (hdeg : ¬ self.degree < divisor.degree)
    (lc : F) (hlc : divisor.leading_coefficient = some lc) (hlc0 : lc ≠ 0)
    (q' rem' : List F)
    (hqr : divideLoop divisor lc⁻¹ self.into_dense.coeffs.length
      (List.replicate (self.degree - divisor.degree + 1) 0)
      self.into_dense.coeffs = (q', rem')) :
    self.divide_with_q_and_r divisor =
      some (DensePolynomial.from_coefficients_vec q', ⟨rem'⟩) := by
  unfold DenseOrSparsePolynomial.divide_with_q_and_r
  rw [hz, hnz]
  simp only [Bool.false_eq_true, if_false, if_neg hdeg, hlc, if_neg hlc0]
  show some (DensePolynomial.from_coefficients_vec
      (divideLoop divisor lc⁻¹ self.into_dense.coeffs.length
        (List.replicate (self.degree - divisor.degree + 1) 0)
        self.into_dense.coeffs).1,
    DensePolynomial.mk (divideLoop divisor lc⁻¹ self.into_dense.coeffs.length
        (List.replicate (self.degree - divisor.degree + 1) 0)
        self.into_dense.coeffs).2) = _
  rw [hqr]

end SnarkVM

namespace SnarkVM

/-! ## Claim theorems -/

/-- Claim C2: for non-constant operands, `Field::is_not_equal` allocates the
boolean witness `is_neq` and the multiplier witness and emits exactly the two
gates `(a - b) * multiplier = is_neq` and `(a - b) * (1 - is_neq) = 0`; the
emitted gates hold for the honest witnesses, and every assignment of the two
witnesses satisfying both gates has `is_neq` equal to the true inequality
indicator (`is_neq = 1` if and only if `a ≠ b`). -/
theorem C2_field_is_not_equal {p : Nat} (hp : Nat.Prime p) (x y : FieldVar p)
    (hmode : (x.mode.is_constant && y.mode.is_constant) = false) :
    FieldVar.is_not_equal x y =
      ((Mode.Private, decide (x.val ≠ y.val)),
        neqGates x.val y.val (boolToField p (decide (x.val ≠ y.val)))
          (if x.val ≠ y.val then (x.val - y.val)⁻¹ else 1)) ∧
    (FieldVar.is_not_equal x y).2.length = 2 ∧
    gatesHold (FieldVar.is_not_equal x y).2 ∧
    (∀ i m : ZMod p, gatesHold (neqGates x.val y.val i m) →
      (i = 1 ↔ x.val ≠ y.val)) := by
  haveI : Fact (Nat.Prime p) := ⟨hp⟩
  have hdef : FieldVar.is_not_equal x y =
      ((Mode.Private, decide (x.val ≠ y.val)),
        neqGates x.val y.val (boolToField p (decide (x.val ≠ y.val)))
          (if x.val ≠ y.val then (x.val - y.val)⁻¹ else 1)) := by
    unfold FieldVar.is_not_equal
    simp only [hmode, Bool.false_eq_true, if_false]
  refine ⟨hdef, by rw [hdef]; rfl, ?_, ?_⟩
  · rw [hdef]
    intro g hg
    simp only [neqGates, List.mem_cons, List.not_mem_nil, or_false] at hg
    by_cases hxy : x.val = y.val
    · have hd : x.val - y.val = 0 := sub_eq_zero_of_eq hxy
      rcases hg with rfl | rfl <;> simp [Gate.holds, hd, boolToField, hxy]
    · have hd : x.val - y.val ≠ 0 := sub_ne_zero_of_ne hxy
      rcases hg with rfl | rfl
      · simp [Gate.holds, boolToField, hxy, mul_inv_cancel₀ hd]
      · simp [Gate.holds, boolToField, hxy]
  · intro i m hgs
    have h1 : (x.val - y.val) * m = i :=
      hgs ⟨x.val - y.val, m, i⟩ (by simp [neqGates])
    have h2 : (x.val - y.val) * (1 - i) = 0 :=
      hgs ⟨x.val - y.val, 1 - i, 0⟩ (by simp [neqGates])
    by_cases hxy : x.val = y.val
    · have hd : x.val - y.val = 0 := sub_eq_zero_of_eq hxy
      rw [hd, zero_mul] at h1
      constructor
      · intro hi
        rw [hi] at h1
        exact absurd h1.symm one_ne_zero
      · intro hne; exact absurd hxy hne
    · have hd : x.val - y.val ≠ 0 := sub_ne_zero_of_ne hxy
      have hzero : 1 - i = 0 := by
        rcases mul_eq_zero.mp h2 with h | h
        · exact absurd h hd
        · exact h
      have hi : i = 1 := (sub_eq_zero.mp hzero).symm
      exact ⟨fun _ => hxy, fun _ => hi⟩

/-- Witness for C2 at p = 13 with x = 3 public and y = 5 public. -/
theorem C2_field_is_not_equal_witness :
    Nat.Prime 13 ∧
    (((FieldVar.mk Mode.Public (3 : ZMod 13)).mode.is_constant &&
      (FieldVar.mk Mode.Public (5 : ZMod 13)).mode.is_constant) = false) ∧
    (FieldVar.is_not_equal (FieldVar.mk Mode.Public (3 : ZMod 13))
        (FieldVar.mk Mode.Public (5 : ZMod 13)) =
      ((Mode.Private, decide ((3 : ZMod 13) ≠ 5)),
        neqGates (3 : ZMod 13) 5 (boolToField 13 (decide ((3 : ZMod 13) ≠ 5)))
          (if (3 : ZMod 13) ≠ 5 then ((3 : ZMod 13) - 5)⁻¹ else 1)) ∧
    (FieldVar.is_not_equal (FieldVar.mk Mode.Public (3 : ZMod 13))
        (FieldVar.mk Mode.Public (5 : ZMod 13))).2.length = 2 ∧
    gatesHold (FieldVar.is_not_equal (FieldVar.mk Mode.Public (3 : ZMod 13))
        (FieldVar.mk Mode.Public (5 : ZMod 13))).2 ∧
    (∀ i m : ZMod 13, gatesHold (neqGates (3 : ZMod 13) 5 i m) →
      (i = 1 ↔ (3 : ZMod 13) ≠ 5))) :=
  ⟨by norm_num, rfl,
    C2_field_is_not_equal (by norm_num)
      (FieldVar.mk Mode.Public (3 : ZMod 13))
      (FieldVar.mk Mode.Public (5 : ZMod 13)) rfl⟩

/-- Claim C6 counterexample: dividing the zero polynomial by the zero
polynomial returns `(0, 0)` rather than halting — the `is_zero(dividend)`
branch precedes the zero-divisor check — so the function does not halt for
every zero divisor. -/
theorem C6_counterexample :
    (DenseOrSparsePolynomial.DPolynomial (⟨[]⟩ : DensePolynomial (ZMod 5))).is_zero = true ∧
    DenseOrSparsePolynomial.divide_with_q_and_r
        (DenseOrSparsePolynomial.DPolynomial (⟨[]⟩ : DensePolynomial (ZMod 5)))
        (DenseOrSparsePolynomial.DPolynomial ⟨[]⟩) =
      some (DensePolynomial.zero, DensePolynomial.zero) := by
  exact ⟨rfl, rfl⟩

/-- Claim C6 (amended): `divide_with_q_and_r` halts exactly on a zero divisor
with a nonzero dividend (a zero dividend short-circuits to `(0, 0)` first). -/
theorem C6_divide_by_zero_halts {F : Type} [Field F] [DecidableEq F]
    (self divisor : DenseOrSparsePolynomial F)
    (hself : self.is_zero = false) (hdiv : divisor.is_zero = true) :
    self.divide_with_q_and_r divisor = none := by
  unfold DenseOrSparsePolynomial.divide_with_q_and_r
  simp [hself, hdiv]

/-- Witness for the amended C6: `x / 0` halts over `ZMod 5`. -/
theorem C6_divide_by_zero_halts_witness :
    (DenseOrSparsePolynomial.DPolynomial (⟨[0, 1]⟩ : DensePolynomial (ZMod 5))).is_zero = false ∧
    (DenseOrSparsePolynomial.DPolynomial (⟨[]⟩ : DensePolynomial (ZMod 5))).is_zero = true ∧
    DenseOrSparsePolynomial.divide_with_q_and_r
        (DenseOrSparsePolynomial.DPolynomial (⟨[0, 1]⟩ : DensePolynomial (ZMod 5)))
        (DenseOrSparsePolynomial.DPolynomial ⟨[]⟩) = none :=
  ⟨rfl, rfl, C6_divide_by_zero_halts _ _ rfl rfl⟩

/-- Claim C9: converting a `DenseOrSparsePolynomial` into a dense polynomial
succeeds for both variants and preserves every coefficient, while converting
into a sparse polynomial returns the typed error exactly when the source
holds the Dense variant and returns the held sparse polynomial when the
source holds the Sparse variant. -/
theorem C9_conversions {F : Type} [AddMonoid F] [DecidableEq F]
    (x : DenseOrSparsePolynomial F) (hx : x.inv) :
    (∀ n, denseCoeff x.into_dense.coeffs n = dosCoeff x n) ∧
    (∀ s, x = .SPolynomial s → x.try_into_sparse = .ok s) ∧
    (x.try_into_sparse = .error () ↔ ∃ d, x = .DPolynomial d) := by
  refine ⟨?_, ?_, ?_⟩
  · intro n
    cases x with
    | DPolynomial d => rfl
    | SPolynomial s => exact sparseToDense_coeff s hx n
  · intro s hs; subst hs; rfl
  · cases x with
    | SPolynomial s =>
        constructor
        · intro h; simp [DenseOrSparsePolynomial.try_into_sparse] at h
        · rintro ⟨d, hd⟩; cases hd
    | DPolynomial d =>
        constructor
        · intro _; exact ⟨d, rfl⟩
        · intro _; rfl

/-- Witness for C9 at a concrete sparse polynomial over `ZMod 5`. -/
theorem C9_conversions_witness :
    (DenseOrSparsePolynomial.SPolynomial
      (⟨[(0, (2 : ZMod 5)), (2, 1)]⟩ : SparsePolynomial (ZMod 5))).inv ∧
    ((∀ n, denseCoeff (DenseOrSparsePolynomial.SPolynomial
        (⟨[(0, (2 : ZMod 5)), (2, 1)]⟩ : SparsePolynomial (ZMod 5))).into_dense.coeffs n =
        dosCoeff (DenseOrSparsePolynomial.SPolynomial
        (⟨[(0, (2 : ZMod 5)), (2, 1)]⟩ : SparsePolynomial (ZMod 5))) n) ∧
    (∀ s, DenseOrSparsePolynomial.SPolynomial
        (⟨[(0, (2 : ZMod 5)), (2, 1)]⟩ : SparsePolynomial (ZMod 5)) = .SPolynomial s →
      (DenseOrSparsePolynomial.SPolynomial
        (⟨[(0, (2 : ZMod 5)), (2, 1)]⟩ : SparsePolynomial (ZMod 5))).try_into_sparse = .ok s) ∧
    ((DenseOrSparsePolynomial.SPolynomial
        (⟨[(0, (2 : ZMod 5)), (2, 1)]⟩ : SparsePolynomial (ZMod 5))).try_into_sparse = .error () ↔
      ∃ d, DenseOrSparsePolynomial.SPolynomial
        (⟨[(0, (2 : ZMod 5)), (2, 1)]⟩ : SparsePolynomial (ZMod 5)) = .DPolynomial d)) :=
  ⟨by decide, C9_conversions _ (by decide)⟩

/-- Claim C7 (amended): `to_lower_bits_le(k)` halts exactly when `k` exceeds
the base-field size in bits; otherwise it returns exactly the `k` low-order
bits of the element and asserts the single weighted-sum gate
`value * 1 = sum of 2^i * b_i`; the gate is satisfied by the honest witness
exactly when all higher bits of the element are zero; and whenever `2 ^ k ≤ p`
(equivalently, `k` strictly below the field size in bits) the gate forces any
satisfying boolean assignment to be the true `k` low-order bits of the
element, with all higher bits zero.  (At `k` equal to the field size the sum
is only constrained modulo `p`; see the counterexample.) -/
theorem C7_to_lower_bits_le (p k : Nat) (hp : 0 < p) (x : ZMod p) :
    (to_lower_bits_le p x k = none ↔ sizeInBits p < k) ∧
    (k ≤ sizeInBits p →
      to_lower_bits_le p x k =
        some (natBitsLE k (ZMod.val x),
          [⟨x, 1, ((ZMod.val x % 2 ^ k : Nat) : ZMod p)⟩]) ∧
      (natBitsLE k (ZMod.val x)).length = k ∧
      (gatesHold [(⟨x, 1, ((ZMod.val x % 2 ^ k : Nat) : ZMod p)⟩ : Gate p)] ↔
        ZMod.val x < 2 ^ k)) ∧
    (2 ^ k ≤ p → ∀ bits : List Bool, bits.length = k →
      (Gate.mk x 1 ((bitsToNat bits : Nat) : ZMod p)).holds →
      bits = natBitsLE k (ZMod.val x) ∧ ZMod.val x < 2 ^ k) := by
  haveI : NeZero p := ⟨by omega⟩
  refine ⟨?_, ?_, ?_⟩
  · unfold to_lower_bits_le
    by_cases h : k > sizeInBits p
    · simp [h]
    · simp [h]
  · intro hk
    have hnone : ¬ (k > sizeInBits p) := by omega
    refine ⟨?_, natBitsLE_length k _, ?_⟩
    · unfold to_lower_bits_le
      rw [if_neg hnone]
      show some (natBitsLE k x.val,
          [Gate.mk x 1 (bitsAccum p (natBitsLE k x.val) 0 1)]) = _
      rw [bitsAccum_zero_one, bitsToNat_natBitsLE]
    · constructor
      · intro hg
        have h1 := hg ⟨x, 1, ((ZMod.val x % 2 ^ k : Nat) : ZMod p)⟩ (by simp)
        have hxv : ZMod.val x = ZMod.val x % 2 ^ k := by
          have hx : x = ((ZMod.val x % 2 ^ k : Nat) : ZMod p) := by
            simpa [Gate.holds] using h1
          conv_lhs => rw [hx]
          rw [ZMod.val_cast_of_lt (lt_of_le_of_lt (Nat.mod_le _ _) (ZMod.val_lt x))]
        have hm : ZMod.val x % 2 ^ k < 2 ^ k :=
          Nat.mod_lt _ (Nat.pos_pow_of_pos k (by omega))
        omega
      · intro hlt g hgm
        simp only [List.mem_singleton] at hgm
        subst hgm
        show x * 1 = ((ZMod.val x % 2 ^ k : Nat) : ZMod p)
        rw [Nat.mod_eq_of_lt hlt, mul_one]
        exact (ZMod.natCast_rightInverse x).symm
  · intro hpk bits hlen hg
    have hlt : bitsToNat bits < 2 ^ k := hlen ▸ bitsToNat_lt bits
    have hltp : bitsToNat bits < p := lt_of_lt_of_le hlt hpk
    have hx : x = ((bitsToNat bits : Nat) : ZMod p) := by
      simpa [Gate.holds] using hg
    have hval : ZMod.val x = bitsToNat bits := by
      rw [hx, ZMod.val_cast_of_lt hltp]
    constructor
    · rw [hval, ← hlen, natBitsLE_bitsToNat]
    · rw [hval]; exact hlt

/-- Claim C7 counterexample: at `k` equal to the field size in bits — a value
the halting rule allows — the weighted-sum gate only constrains the bit sum
modulo `p`.  Over `ZMod 5` with `k = 3`, the dishonest bit assignment
`[true, false, true]` (value 5) satisfies the gate for the element 0 yet is
not the bit decomposition of 0, so the gate does not prove the extracted bits
correct for every allowed `k`. -/
theorem C7_counterexample :
    ¬ sizeInBits 5 < 3 ∧
    (to_lower_bits_le 5 (0 : ZMod 5) 3).isSome = true ∧
    [true, false, true].length = 3 ∧
    (Gate.mk (0 : ZMod 5) 1 ((bitsToNat [true, false, true] : Nat) : ZMod 5)).holds ∧
    [true, false, true] ≠ natBitsLE 3 (ZMod.val (0 : ZMod 5)) := by
  refine ⟨by decide, by decide, by decide, ?_, by decide⟩
  show (0 : ZMod 5) * 1 = ((bitsToNat [true, false, true] : Nat) : ZMod 5)
  decide

/-- Witness for the amended C7 at p = 5, k = 2, x = 3. -/
theorem C7_to_lower_bits_le_witness :
    0 < 5 ∧
    ((to_lower_bits_le 5 (3 : ZMod 5) 2 = none ↔ sizeInBits 5 < 2) ∧
    (2 ≤ sizeInBits 5 →
      to_lower_bits_le 5 (3 : ZMod 5) 2 =
        some (natBitsLE 2 (ZMod.val (3 : ZMod 5)),
          [⟨(3 : ZMod 5), 1, ((ZMod.val (3 : ZMod 5) % 2 ^ 2 : Nat) : ZMod 5)⟩]) ∧
      (natBitsLE 2 (ZMod.val (3 : ZMod 5))).length = 2 ∧
      (gatesHold [(⟨(3 : ZMod 5), 1,
          ((ZMod.val (3 : ZMod 5) % 2 ^ 2 : Nat) : ZMod 5)⟩ : Gate 5)] ↔
        ZMod.val (3 : ZMod 5) < 2 ^ 2)) ∧
    (2 ^ 2 ≤ 5 → ∀ bits : List Bool, bits.length = 2 →
      (Gate.mk (3 : ZMod 5) 1 ((bitsToNat bits : Nat) : ZMod 5)).holds →
      bits = natBitsLE 2 (ZMod.val (3 : ZMod 5)) ∧ ZMod.val (3 : ZMod 5) < 2 ^ 2)) :=
  ⟨by norm_num, C7_to_lower_bits_le 5 2 (by norm_num) (3 : ZMod 5)⟩

/-- Claim C3: `sub_wrapped` returns the native wrapping subtraction of the
ejected values in every mode combination; it never halts; the non-constant
path emits only the bit-decomposition identity gate (no overflow assertion),
and every emitted gate holds, so no unsatisfiability can arise from the
subtraction itself. -/
theorem C3_sub_wrapped (p W : Nat) (x y : IntegerVar p W)
    (hp : 2 ^ (W + 1) ≤ p) (hx : x.val < 2 ^ W) (hy : y.val < 2 ^ W) :
    ((x.mode.is_constant && y.mode.is_constant) = true →
      x.sub_wrapped y = some (⟨Mode.Constant, wrappingSub W x.val y.val⟩, [])) ∧
    ((x.mode.is_constant && y.mode.is_constant) = false →
      x.sub_wrapped y =
        some (⟨Mode.Private, wrappingSub W x.val y.val⟩, wrapGates p W x.val y.val)) ∧
    x.sub_wrapped y ≠ none ∧
    (∀ r gs, x.sub_wrapped y = some (r, gs) →
      r.val = wrappingSub W x.val y.val ∧ gatesHold gs) := by
  have hpw : (0 : Nat) < 2 ^ W := Nat.pos_pow_of_pos W (by omega)
  have hv : x.val + 2 ^ W - y.val < 2 ^ (W + 1) := by
    have h2 : (2 : Nat) ^ (W + 1) = 2 * 2 ^ W := by ring
    omega
  have hconst : (x.mode.is_constant && y.mode.is_constant) = true →
      x.sub_wrapped y = some (⟨Mode.Constant, wrappingSub W x.val y.val⟩, []) := by
    intro hmode
    unfold IntegerVar.sub_wrapped
    rw [hmode, if_pos rfl]
  have hcirc : (x.mode.is_constant && y.mode.is_constant) = false →
      x.sub_wrapped y =
        some (⟨Mode.Private, wrappingSub W x.val y.val⟩, wrapGates p W x.val y.val) := by
    intro hmode
    unfold IntegerVar.sub_wrapped
    rw [hmode, if_neg (by simp)]
    rw [sub_field_value p W x.val y.val hx hy]
    show (match to_lower_bits_le p ((x.val + 2 ^ W - y.val : Nat) : ZMod p) (W + 1) with
      | none => none
      | some (bits, gs) =>
          some (IntegerVar.mk Mode.Private (bitsToNat bits.dropLast), gs)) = _
    rw [to_lower_bits_on_value p (W + 1) _ hv hp]
    show some (IntegerVar.mk Mode.Private
        (bitsToNat (natBitsLE (W + 1) (x.val + 2 ^ W - y.val)).dropLast),
      [Gate.mk ((x.val + 2 ^ W - y.val : Nat) : ZMod p) 1
        ((x.val + 2 ^ W - y.val : Nat) : ZMod p)]) = _
    rw [natBitsLE_dropLast, bitsToNat_natBitsLE, wrappingSub_eq W _ _ hy]
    rfl
  have hcases := Bool.eq_false_or_eq_true (x.mode.is_constant && y.mode.is_constant)
  refine ⟨hconst, hcirc, ?_, ?_⟩
  · rcases hcases with h | h
    · rw [hconst h]; simp
    · rw [hcirc h]; simp
  · intro r gs hres
    rcases hcases with h | h
    · rw [hconst h] at hres
      simp only [Option.some.injEq, Prod.mk.injEq] at hres
      obtain ⟨hr, hg⟩ := hres
      subst hr
      subst hg
      exact ⟨rfl, by intro g hgm; simp at hgm⟩
    · rw [hcirc h] at hres
      simp only [Option.some.injEq, Prod.mk.injEq] at hres
      obtain ⟨hr, hg⟩ := hres
      subst hr
      subst hg
      refine ⟨rfl, ?_⟩
      intro g hgm
      simp only [wrapGates, List.mem_singleton] at hgm
      subst hgm
      show ((x.val + 2 ^ W - y.val : Nat) : ZMod p) * 1 = _
      rw [mul_one]

/-- Witness for C3 at p = 16, W = 3 with x = 5 public and y = 3 public. -/
theorem C3_sub_wrapped_witness :
    2 ^ (3 + 1) ≤ 16 ∧ (5 : Nat) < 2 ^ 3 ∧ (3 : Nat) < 2 ^ 3 ∧
    ((((IntegerVar.mk Mode.Public 5 : IntegerVar 16 3).mode.is_constant &&
        (IntegerVar.mk Mode.Public 3 : IntegerVar 16 3).mode.is_constant) = true →
      (IntegerVar.mk Mode.Public 5 : IntegerVar 16 3).sub_wrapped
          (IntegerVar.mk Mode.Public 3) =
        some (⟨Mode.Constant, wrappingSub 3 5 3⟩, [])) ∧
    ((((IntegerVar.mk Mode.Public 5 : IntegerVar 16 3).mode.is_constant &&
        (IntegerVar.mk Mode.Public 3 : IntegerVar 16 3).mode.is_constant) = false) →
      (IntegerVar.mk Mode.Public 5 : IntegerVar 16 3).sub_wrapped
          (IntegerVar.mk Mode.Public 3) =
        some (⟨Mode.Private, wrappingSub 3 5 3⟩, wrapGates 16 3 5 3)) ∧
    (IntegerVar.mk Mode.Public 5 : IntegerVar 16 3).sub_wrapped
        (IntegerVar.mk Mode.Public 3) ≠ none ∧
    (∀ r gs, (IntegerVar.mk Mode.Public 5 : IntegerVar 16 3).sub_wrapped
        (IntegerVar.mk Mode.Public 3) = some (r, gs) →
      r.val = wrappingSub 3 5 3 ∧ gatesHold gs)) :=
  ⟨by norm_num, by norm_num, by norm_num,
    C3_sub_wrapped 16 3 (IntegerVar.mk Mode.Public 5) (IntegerVar.mk Mode.Public 3)
      (by norm_num) (by norm_num) (by norm_num)⟩

/-- Claim C4: `sub_checked` on two Constant operands returns the native
checked difference as a new Constant when no underflow occurs and halts
(`none`) when the native checked subtraction underflows (for unsigned types
that is exactly when `x < y`); with at least one non-Constant operand and an
unsigned type it computes `a + (!b) + 1` over the field, splits off the carry
bit, and asserts the carry bit equals 1, so the emitted gates are satisfiable
exactly when the subtraction does not underflow. -/
theorem C4_sub_checked (p W : Nat) (signed : Bool) (x y : IntegerVar p W)
    (hp : 2 ^ (W + 1) ≤ p) (hx : x.val < 2 ^ W) (hy : y.val < 2 ^ W) :
    ((x.mode.is_constant && y.mode.is_constant) = true →
      (∀ v, checkedSubNative W signed x.val y.val = some v →
        IntegerVar.sub_checked signed x y = some (⟨Mode.Constant, v⟩, [])) ∧
      (checkedSubNative W signed x.val y.val = none →
        IntegerVar.sub_checked signed x y = none)) ∧
    (checkedSubNative W false x.val y.val =
      if y.val ≤ x.val then some (x.val - y.val) else none) ∧
    ((x.mode.is_constant && y.mode.is_constant) = false → signed = false →
      IntegerVar.sub_checked signed x y =
        some (⟨Mode.Private, wrappingSub W x.val y.val⟩, subGates p W x.val y.val) ∧
      (gatesHold (subGates p W x.val y.val) ↔ y.val ≤ x.val)) := by
  have hpw : (0 : Nat) < 2 ^ W := Nat.pos_pow_of_pos W (by omega)
  have hv : x.val + 2 ^ W - y.val < 2 ^ (W + 1) := by
    have h2 : (2 : Nat) ^ (W + 1) = 2 * 2 ^ W := by ring
    omega
  refine ⟨?_, ?_, ?_⟩
  · intro hmode
    constructor
    · intro v hsome
      unfold IntegerVar.sub_checked
      rw [hmode, if_pos rfl, hsome]
    · intro hnone
      unfold IntegerVar.sub_checked
      rw [hmode, if_pos rfl, hnone]
  · unfold checkedSubNative
    simp
  · intro hmode hsigned
    subst hsigned
    constructor
    · unfold IntegerVar.sub_checked
      rw [hmode, if_neg (by simp)]
      rw [sub_field_value p W x.val y.val hx hy]
      show (match to_lower_bits_le p ((x.val + 2 ^ W - y.val : Nat) : ZMod p) (W + 1) with
        | none => none
        | some (bits, gs) =>
          match bits.getLast? with
          | none => none
          | some carry =>
              some (IntegerVar.mk Mode.Private (bitsToNat bits.dropLast),
                gs ++ [Gate.mk (boolToField p carry) 1 1])) = _
      rw [to_lower_bits_on_value p (W + 1) _ hv hp]
      show (match (natBitsLE (W + 1) (x.val + 2 ^ W - y.val)).getLast? with
        | none => none
        | some carry =>
            some (IntegerVar.mk Mode.Private
                (bitsToNat (natBitsLE (W + 1) (x.val + 2 ^ W - y.val)).dropLast),
              [Gate.mk ((x.val + 2 ^ W - y.val : Nat) : ZMod p) 1
                 ((x.val + 2 ^ W - y.val : Nat) : ZMod p)] ++
                [Gate.mk (boolToField p carry) 1 1])) = _
      rw [natBitsLE_getLast, carry_eq W x.val y.val hx hy,
        natBitsLE_dropLast, bitsToNat_natBitsLE, wrappingSub_eq W _ _ hy]
      rfl
    · constructor
      · intro hgs
        by_cases h : y.val ≤ x.val
        · exact h
        · exfalso
          have h2 := hgs (Gate.mk (boolToField p (decide (y.val ≤ x.val))) 1 1)
            (by simp [subGates])
          have hp2 : 1 < p := lt_of_lt_of_le (Nat.one_lt_two_pow (by omega)) hp
          haveI : Fact (1 < p) := ⟨hp2⟩
          simp [Gate.holds, boolToField, h] at h2
      · intro h g hgm
        simp only [subGates, List.mem_cons, List.not_mem_nil, or_false] at hgm
        rcases hgm with rfl | rfl
        · show ((x.val + 2 ^ W - y.val : Nat) : ZMod p) * 1 = _
          rw [mul_one]
        · show boolToField p (decide (y.val ≤ x.val)) * 1 = 1
          simp [boolToField, h]

/-- Witness for C4 (unsigned) at p = 16, W = 3 with x = 5 public and
y = 3 public. -/
theorem C4_sub_checked_witness :
    2 ^ (3 + 1) ≤ 16 ∧ (5 : Nat) < 2 ^ 3 ∧ (3 : Nat) < 2 ^ 3 ∧
    ((((IntegerVar.mk Mode.Public 5 : IntegerVar 16 3).mode.is_constant &&
        (IntegerVar.mk Mode.Public 3 : IntegerVar 16 3).mode.is_constant) = true →
      (∀ v, checkedSubNative 3 false 5 3 = some v →
        IntegerVar.sub_checked false (IntegerVar.mk Mode.Public 5 : IntegerVar 16 3)
            (IntegerVar.mk Mode.Public 3) = some (⟨Mode.Constant, v⟩, [])) ∧
      (checkedSubNative 3 false 5 3 = none →
        IntegerVar.sub_checked false (IntegerVar.mk Mode.Public 5 : IntegerVar 16 3)
            (IntegerVar.mk Mode.Public 3) = none)) ∧
    (checkedSubNative 3 false 5 3 = if 3 ≤ 5 then some (5 - 3) else none) ∧
    ((((IntegerVar.mk Mode.Public 5 : IntegerVar 16 3).mode.is_constant &&
        (IntegerVar.mk Mode.Public 3 : IntegerVar 16 3).mode.is_constant) = false) →
      false = false →
      IntegerVar.sub_checked false (IntegerVar.mk Mode.Public 5 : IntegerVar 16 3)
          (IntegerVar.mk Mode.Public 3) =
        some (⟨Mode.Private, wrappingSub 3 5 3⟩, subGates 16 3 5 3) ∧
      (gatesHold (subGates 16 3 5 3) ↔ 3 ≤ 5))) :=
  ⟨by norm_num, by norm_num, by norm_num,
    C4_sub_checked 16 3 false (IntegerVar.mk Mode.Public 5) (IntegerVar.mk Mode.Public 3)
      (by norm_num) (by norm_num) (by norm_num)⟩

/-- Claim C5: `mul_checked` on two Constant operands uses the native
`checked_mul` and halts (`none`) when it returns `None` (for unsigned types
exactly when `2^W ≤ x*y`); for unsigned types with a non-Constant operand it
computes the product with wide carry bits and asserts that the OR of all
carry bits is zero, so the emitted gates are satisfiable exactly when the
true product fits the width. -/
theorem C5_mul_checked (p W : Nat) (signed : Bool) (x y : IntegerVar p W)
    (hW : 0 < W) (hp : 2 ^ (2 * W) ≤ p) (hx : x.val < 2 ^ W) (hy : y.val < 2 ^ W) :
    ((x.mode.is_constant && y.mode.is_constant) = true →
      (∀ v, checkedMulNative W signed x.val y.val = some v →
        IntegerVar.mul_checked signed x y = some (⟨Mode.Constant, v⟩, [])) ∧
      (checkedMulNative W signed x.val y.val = none →
        IntegerVar.mul_checked signed x y = none)) ∧
    (checkedMulNative W false x.val y.val =
      if x.val * y.val < 2 ^ W then some (x.val * y.val) else none) ∧
    ((x.mode.is_constant && y.mode.is_constant) = false → signed = false →
      IntegerVar.mul_checked signed x y =
        some (⟨Mode.Private, x.val * y.val % 2 ^ W⟩, mulGates p W x.val y.val) ∧
      (gatesHold (mulGates p W x.val y.val) ↔ x.val * y.val < 2 ^ W)) := by
  have hpw : (0 : Nat) < 2 ^ W := Nat.pos_pow_of_pos W (by omega)
  have hxy : x.val * y.val < 2 ^ (2 * W) := by
    calc x.val * y.val < 2 ^ W * 2 ^ W := Nat.mul_lt_mul'' hx hy
      _ = 2 ^ (2 * W) := by rw [← pow_add, two_mul]
  have hqlt : x.val * y.val / 2 ^ W < 2 ^ W := by
    rw [Nat.div_lt_iff_lt_mul hpw]
    calc x.val * y.val < 2 ^ (2 * W) := hxy
      _ = 2 ^ W * 2 ^ W := by rw [← pow_add, two_mul]
  refine ⟨?_, ?_, ?_⟩
  · intro hmode
    constructor
    · intro v hsome
      unfold IntegerVar.mul_checked
      rw [hmode, if_pos rfl, hsome]
    · intro hnone
      unfold IntegerVar.mul_checked
      rw [hmode, if_pos rfl, hnone]
  · unfold checkedMulNative
    simp
  · intro hmode hsigned
    subst hsigned
    constructor
    · unfold IntegerVar.mul_checked
      rw [hmode, if_neg (by simp), if_neg (by simp),
        mulWithCarry_eq p W x y hp hx hy]
      show some (IntegerVar.mk Mode.Private (x.val * y.val % 2 ^ W),
        [Gate.mk ((x.val : Nat) : ZMod p) ((y.val : Nat) : ZMod p)
           ((x.val * y.val : Nat) : ZMod p),
         Gate.mk ((x.val * y.val : Nat) : ZMod p) 1
           ((x.val * y.val : Nat) : ZMod p)] ++
        [Gate.mk (boolToField p ((natBitsLE W (x.val * y.val / 2 ^ W)).foldl
            (fun a b => a || b) false)) 1 0]) = _
      rw [overflow_bits_or W _ hqlt,
        show (decide (x.val * y.val / 2 ^ W ≠ 0)) =
            decide (2 ^ W ≤ x.val * y.val) from
          decide_eq_decide.mpr (by rw [ne_eq, Nat.div_eq_zero_iff hpw]; omega)]
      rfl
    · haveI : Fact (1 < p) :=
        ⟨lt_of_lt_of_le (Nat.one_lt_two_pow (by omega)) hp⟩
      constructor
      · intro hgs
        by_cases h : x.val * y.val < 2 ^ W
        · exact h
        · exfalso
          have h3 := hgs (Gate.mk (boolToField p (decide (2 ^ W ≤ x.val * y.val))) 1 0)
            (by simp [mulGates])
          simp [Gate.holds, boolToField, not_lt.mp h] at h3
      · intro h g hgm
        simp only [mulGates, List.mem_cons, List.not_mem_nil, or_false] at hgm
        rcases hgm with rfl | rfl | rfl
        · show ((x.val : Nat) : ZMod p) * ((y.val : Nat) : ZMod p) =
            ((x.val * y.val : Nat) : ZMod p)
          rw [Nat.cast_mul]
        · show ((x.val * y.val : Nat) : ZMod p) * 1 = _
          rw [mul_one]
        · show boolToField p (decide (2 ^ W ≤ x.val * y.val)) * 1 = 0
          simp [boolToField, not_le.mpr h]

/-- Witness for C5 (unsigned) at p = 64, W = 3 with x = 5 public and
y = 3 public (an overflowing product: 15 does not fit 3 bits). -/
theorem C5_mul_checked_witness :
    (0 : Nat) < 3 ∧ 2 ^ (2 * 3) ≤ 64 ∧ (5 : Nat) < 2 ^ 3 ∧ (3 : Nat) < 2 ^ 3 ∧
    ((((IntegerVar.mk Mode.Public 5 : IntegerVar 64 3).mode.is_constant &&
        (IntegerVar.mk Mode.Public 3 : IntegerVar 64 3).mode.is_constant) = true →
      (∀ v, checkedMulNative 3 false 5 3 = some v →
        IntegerVar.mul_checked false (IntegerVar.mk Mode.Public 5 : IntegerVar 64 3)
            (IntegerVar.mk Mode.Public 3) = some (⟨Mode.Constant, v⟩, [])) ∧
      (checkedMulNative 3 false 5 3 = none →
        IntegerVar.mul_checked false (IntegerVar.mk Mode.Public 5 : IntegerVar 64 3)
            (IntegerVar.mk Mode.Public 3) = none)) ∧
    (checkedMulNative 3 false 5 3 = if 5 * 3 < 2 ^ 3 then some (5 * 3) else none) ∧
    ((((IntegerVar.mk Mode.Public 5 : IntegerVar 64 3).mode.is_constant &&
        (IntegerVar.mk Mode.Public 3 : IntegerVar 64 3).mode.is_constant) = false) →
      false = false →
      IntegerVar.mul_checked false (IntegerVar.mk Mode.Public 5 : IntegerVar 64 3)
          (IntegerVar.mk Mode.Public 3) =
        some (⟨Mode.Private, 5 * 3 % 2 ^ 3⟩, mulGates 64 3 5 3) ∧
      (gatesHold (mulGates 64 3 5 3) ↔ 5 * 3 < 2 ^ 3))) :=
  ⟨by norm_num, by norm_num, by norm_num, by norm_num,
    C5_mul_checked 64 3 false (IntegerVar.mk Mode.Public 5) (IntegerVar.mk Mode.Public 3)
      (by norm_num) (by norm_num) (by norm_num) (by norm_num)⟩

/-- Claim C1: for every dividend and every nonzero divisor (satisfying the
data-model invariants of section 3), `divide_with_q_and_r` returns a pair
`(q, r)` with `q * d + r = p` — stated coefficientwise through the defining
convolution — and `r` is the zero polynomial or `r.degree() < d.degree()`. -/
theorem C1_divide_with_q_and_r {F : Type} [Field F] [DecidableEq F]
    (self divisor : DenseOrSparsePolynomial F)
    (hself : self.inv) (hdiv : divisor.inv) (hnz : divisor.is_zero = false) :
    ∃ q r, self.divide_with_q_and_r divisor = some (q, r) ∧
      (∀ n, mulCoeff (denseCoeff q.coeffs) (dosCoeff divisor) n +
        denseCoeff r.coeffs n = dosCoeff self n) ∧
      (r.is_zero = true ∨ r.degree < divisor.degree) := by
  by_cases hz : self.is_zero = true
  · refine ⟨DensePolynomial.zero, DensePolynomial.zero, ?_, ?_, Or.inl rfl⟩
    · unfold DenseOrSparsePolynomial.divide_with_q_and_r
      rw [hz, if_pos rfl]
    · intro n
      rw [mulCoeff_zero (denseCoeff
            (DensePolynomial.zero : DensePolynomial F).coeffs)
          (dosCoeff divisor) n (fun i => rfl), zero_add,
        dos_coeff_of_zero self hz n]
      rfl
  · have hz' : self.is_zero = false := by
      cases h : self.is_zero
      · rfl
      · exact absurd h hz
    by_cases hdegcase : self.degree < divisor.degree
    · refine ⟨DensePolynomial.zero, self.into_dense, ?_, ?_, ?_⟩
      · unfold DenseOrSparsePolynomial.divide_with_q_and_r
        rw [hz', hnz]
        simp only [Bool.false_eq_true, if_false, if_pos hdegcase]
      · intro n
        rw [mulCoeff_zero (denseCoeff
              (DensePolynomial.zero : DensePolynomial F).coeffs)
            (dosCoeff divisor) n (fun i => rfl), zero_add,
          into_dense_coeff self hself n]
      · right
        have hcan := into_dense_canonical self hself hz'
        show self.into_dense.coeffs.length - 1 < divisor.degree
        rw [hcan.2.2]
        omega
    · obtain ⟨lc, hlc, hlc0⟩ := dos_lead_exists divisor hdiv hnz
      obtain ⟨hne0, hlast0, hlen0⟩ := into_dense_canonical self hself hz'
      obtain ⟨q', rem', hqr⟩ : ∃ q' rem',
          divideLoop divisor lc⁻¹ self.into_dense.coeffs.length
            (List.replicate (self.degree - divisor.degree + 1) 0)
            self.into_dense.coeffs = (q', rem') := ⟨_, _, rfl⟩
      have hspec := divideLoop_spec divisor hdiv hnz lc hlc hlc0 _ _ _ _ _ hqr
        le_rfl hlast0
        (by rw [List.length_replicate]; omega)
        (fun j _ => replicate_getD_zero _ j)
      refine ⟨DensePolynomial.from_coefficients_vec q', ⟨rem'⟩,
        divide_main_eq self divisor hz' hnz hdegcase lc hlc hlc0 q' rem' hqr,
        ?_, ?_⟩
      · intro n
        have hfc : ∀ i, denseCoeff
            (DensePolynomial.from_coefficients_vec q' : DensePolynomial F).coeffs i =
            denseCoeff q' i := fun i => trimZeros_getD q' i
        rw [mulCoeff_congr _ (denseCoeff q') _ n hfc]
        show mulCoeff (denseCoeff q') (dosCoeff divisor) n +
          denseCoeff rem' n = dosCoeff self n
        rw [hspec.1 n,
          mulCoeff_zero (denseCoeff
              (List.replicate (self.degree - divisor.degree + 1) (0 : F)))
            (dosCoeff divisor) n (fun i => replicate_getD_zero _ i), zero_add,
          into_dense_coeff self hself n]
      · rcases hspec.2.1 with h | h
        · left
          show rem'.isEmpty = true
          rw [h]
          rfl
        · right
          exact h

/-- Witness for C1: dividing x^3 by x over ZMod 5 (the spec scenario). -/
theorem C1_divide_with_q_and_r_witness :
    (DenseOrSparsePolynomial.DPolynomial
      (⟨[0, 0, 0, 1]⟩ : DensePolynomial (ZMod 5))).inv ∧
    (DenseOrSparsePolynomial.DPolynomial
      (⟨[0, 1]⟩ : DensePolynomial (ZMod 5))).inv ∧
    (DenseOrSparsePolynomial.DPolynomial
      (⟨[0, 1]⟩ : DensePolynomial (ZMod 5))).is_zero = false ∧
    (∃ q r, (DenseOrSparsePolynomial.DPolynomial
          (⟨[0, 0, 0, 1]⟩ : DensePolynomial (ZMod 5))).divide_with_q_and_r
        (DenseOrSparsePolynomial.DPolynomial ⟨[0, 1]⟩) = some (q, r) ∧
      (∀ n, mulCoeff (denseCoeff q.coeffs)
          (dosCoeff (DenseOrSparsePolynomial.DPolynomial
            (⟨[0, 1]⟩ : DensePolynomial (ZMod 5)))) n +
        denseCoeff r.coeffs n =
        dosCoeff (DenseOrSparsePolynomial.DPolynomial
          (⟨[0, 0, 0, 1]⟩ : DensePolynomial (ZMod 5))) n) ∧
      (r.is_zero = true ∨ r.degree <
        (DenseOrSparsePolynomial.DPolynomial
          (⟨[0, 1]⟩ : DensePolynomial (ZMod 5))).degree)) :=
  ⟨by decide, by decide, by decide,
    C1_divide_with_q_and_r
      (DenseOrSparsePolynomial.DPolynomial ⟨[0, 0, 0, 1]⟩)
      (DenseOrSparsePolynomial.DPolynomial ⟨[0, 1]⟩)
      (by decide) (by decide) (by decide)⟩

/-- Claim C8: `divide_with_q_and_r` returns (zero, zero) whenever the
dividend is zero; returns (zero, dividend) whenever the degree of the
dividend is strictly below the degree of the divisor; and in the general case
the returned quotient coefficient vector has the fixed length
`dividend.degree() - divisor.degree() + 1` (the top entry, set by the first
round, is nonzero, so the canonicalizing trim removes nothing). -/
theorem C8_divide_shapes {F : Type} [Field F] [DecidableEq F]
    (self divisor : DenseOrSparsePolynomial F) :
    (self.is_zero = true →
      self.divide_with_q_and_r divisor =
        some (DensePolynomial.zero, DensePolynomial.zero)) ∧
    (self.degree < divisor.degree →
      self.divide_with_q_and_r divisor =
        some (DensePolynomial.zero, self.into_dense)) ∧
    (self.inv → divisor.inv → self.is_zero = false → divisor.is_zero = false →
      divisor.degree ≤ self.degree →
      ∃ q r, self.divide_with_q_and_r divisor = some (q, r) ∧
        q.coeffs.length = self.degree - divisor.degree + 1) := by
  refine ⟨?_, ?_, ?_⟩
  · intro hz
    unfold DenseOrSparsePolynomial.divide_with_q_and_r
    rw [hz, if_pos rfl]
  · intro hdegcase
    by_cases hz : self.is_zero = true
    · rw [into_dense_of_zero self hz]
      unfold DenseOrSparsePolynomial.divide_with_q_and_r
      rw [hz, if_pos rfl]
    · have hz' : self.is_zero = false := by
        cases h : self.is_zero
        · rfl
        · exact absurd h hz
      have hnz : divisor.is_zero = false := by
        cases h : divisor.is_zero
        · rfl
        · have := dos_degree_of_zero divisor h
          omega
      unfold DenseOrSparsePolynomial.divide_with_q_and_r
      rw [hz', hnz]
      simp only [Bool.false_eq_true, if_false, if_pos hdegcase]
  · intro hself hdiv hz' hnz hdegge
    obtain ⟨lc, hlc, hlc0⟩ := dos_lead_exists divisor hdiv hnz
    obtain ⟨hne0, hlast0, hlen0⟩ := into_dense_canonical self hself hz'
    obtain ⟨q', rem', hqr⟩ : ∃ q' rem',
        divideLoop divisor lc⁻¹ self.into_dense.coeffs.length
          (List.replicate (self.degree - divisor.degree + 1) 0)
          self.into_dense.coeffs = (q', rem') := ⟨_, _, rfl⟩
    have hspec := divideLoop_spec divisor hdiv hnz lc hlc hlc0 _ _ _ _ _ hqr
      le_rfl hlast0
      (by rw [List.length_replicate]; omega)
      (fun j _ => replicate_getD_zero _ j)
    have hqlen : q'.length = self.degree - divisor.degree + 1 := by
      rw [hspec.2.2.2.1, List.length_replicate]
    have htop := hspec.2.2.2.2.2 hne0 (by omega)
    have htopidx : self.into_dense.coeffs.length - 1 - divisor.degree =
        self.degree - divisor.degree := by omega
    rw [htopidx] at htop
    have hlastval : self.into_dense.coeffs.getLast?.getD 0 ≠ 0 := by
      obtain ⟨a, ha⟩ : ∃ a, self.into_dense.coeffs.getLast? = some a :=
        ⟨_, getLast?_of_ne_nil _ 0 hne0⟩
      rw [ha]
      have h2 : lastNonzero self.into_dense.coeffs = true := hlast0
      unfold lastNonzero at h2
      rw [ha] at h2
      exact of_decide_eq_true h2
    have htopval : q'.getD (self.degree - divisor.degree) 0 ≠ 0 := by
      rw [htop]
      exact mul_ne_zero hlastval (inv_ne_zero hlc0)
    have hq'ne : q' ≠ [] := by
      intro hcon
      rw [hcon] at hqlen
      simp at hqlen
    have hlastq : lastNonzero q' = true := by
      unfold lastNonzero
      rw [getLast?_of_ne_nil _ 0 hq'ne]
      have hidx : q'.length - 1 = self.degree - divisor.degree := by omega
      rw [hidx]
      simpa using htopval
    refine ⟨DensePolynomial.from_coefficients_vec q', ⟨rem'⟩,
      divide_main_eq self divisor hz' hnz (by omega) lc hlc hlc0 q' rem' hqr, ?_⟩
    show (trimZeros q').length = _
    rw [trimZeros_of_lastNonzero q' hlastq, hqlen]

/-- Witness for C8: dividing x^3 by x over ZMod 5 — the general branch with a
quotient vector of length 3 (degree 3 minus degree 1 plus 1). -/
theorem C8_divide_shapes_witness :
    ((DenseOrSparsePolynomial.DPolynomial
        (⟨[0, 0, 0, 1]⟩ : DensePolynomial (ZMod 5))).inv ∧
      (DenseOrSparsePolynomial.DPolynomial
        (⟨[0, 1]⟩ : DensePolynomial (ZMod 5))).inv ∧
      (DenseOrSparsePolynomial.DPolynomial
        (⟨[0, 0, 0, 1]⟩ : DensePolynomial (ZMod 5))).is_zero = false ∧
      (DenseOrSparsePolynomial.DPolynomial
        (⟨[0, 1]⟩ : DensePolynomial (ZMod 5))).is_zero = false ∧
      (DenseOrSparsePolynomial.DPolynomial
        (⟨[0, 1]⟩ : DensePolynomial (ZMod 5))).degree ≤
        (DenseOrSparsePolynomial.DPolynomial
          (⟨[0, 0, 0, 1]⟩ : DensePolynomial (ZMod 5))).degree) ∧
    (∃ q r, (DenseOrSparsePolynomial.DPolynomial
          (⟨[0, 0, 0, 1]⟩ : DensePolynomial (ZMod 5))).divide_with_q_and_r
        (DenseOrSparsePolynomial.DPolynomial ⟨[0, 1]⟩) = some (q, r) ∧
      q.coeffs.length =
        (DenseOrSparsePolynomial.DPolynomial
          (⟨[0, 0, 0, 1]⟩ : DensePolynomial (ZMod 5))).degree -
        (DenseOrSparsePolynomial.DPolynomial
          (⟨[0, 1]⟩ : DensePolynomial (ZMod 5))).degree + 1) :=
  ⟨⟨by decide, by decide, by decide, by decide, by decide⟩,
    (C8_divide_shapes
      (DenseOrSparsePolynomial.DPolynomial ⟨[0, 0, 0, 1]⟩)
      (DenseOrSparsePolynomial.DPolynomial ⟨[0, 1]⟩)).2.2
      (by decide) (by decide) (by decide) (by decide) (by decide)⟩

/-- Claim C10: deserializing always produces the Dense variant, and
serializing the Sparse variant goes through its dense coefficient form; a
serialize-then-deserialize round trip on a sparse polynomial yields the Dense
variant with the same coefficients, and the Sparse variant is never recovered
from the wire format. -/
theorem C10_serialize_roundtrip {F : Type} [AddMonoid F] [DecidableEq F]
    (s : SparsePolynomial F) (hs : s.inv) :
    deserializeDOS (DenseOrSparsePolynomial.serialize (.SPolynomial s)) =
      .DPolynomial (sparseToDense s) ∧
    (∀ n, denseCoeff (sparseToDense s).coeffs n = pairCoeff s.coeffs n) ∧
    (∀ w : List F, ∃ d, deserializeDOS w = .DPolynomial d) :=
  ⟨rfl, fun n => sparseToDense_coeff s hs n, fun w => ⟨⟨w⟩, rfl⟩⟩

/-- Witness for C10 at a concrete sparse polynomial over `ZMod 5`. -/
theorem C10_serialize_roundtrip_witness :
    (⟨[(1, (3 : ZMod 5))]⟩ : SparsePolynomial (ZMod 5)).inv ∧
    (deserializeDOS (DenseOrSparsePolynomial.serialize
        (.SPolynomial (⟨[(1, (3 : ZMod 5))]⟩ : SparsePolynomial (ZMod 5)))) =
      .DPolynomial (sparseToDense (⟨[(1, (3 : ZMod 5))]⟩ : SparsePolynomial (ZMod 5))) ∧
    (∀ n, denseCoeff (sparseToDense
        (⟨[(1, (3 : ZMod 5))]⟩ : SparsePolynomial (ZMod 5))).coeffs n =
      pairCoeff [(1, (3 : ZMod 5))] n) ∧
    (∀ w : List (ZMod 5), ∃ d, deserializeDOS w = .DPolynomial d)) :=
  ⟨by decide, C10_serialize_roundtrip _ (by decide)⟩

end SnarkVM
